import Mathlib

/-!
Verification of the railreader2 detection post-processing pipeline
(`src/layout.rs`) and the rail-navigation state machine (`src/rail.rs`).

The Rust code is shallowly embedded:

* `f32`/`f64` values become `ℚ`.  All constants in the source are decimal
  literals (0.4, 0.5, 0.15, 0.05, 0.299, ...), embedded as the exact
  rationals they denote.  Where a claim is specifically about NaN
  behaviour (the detection-parsing stage), floats are modelled as
  `Option ℚ` with `none` playing the role of NaN and the comparison /
  min / max operators given Rust's NaN semantics.
* `usize` becomes `ℕ` (with saturating subtraction, as in Rust's
  `saturating_sub`; ordinary `Nat` subtraction is already saturating).
* Rust operations that can panic (`Option::unwrap`, out-of-range
  indexing, `usize` subtraction overflow, `f64::clamp` with an empty
  interval) are embedded in `Option`, with `none` meaning "panics".
* Stateful methods of `RailNav` become pure functions from the state to
  an updated state; `std::time::Instant` values are modelled as `ℚ`
  timestamps passed explicitly (`now`).
-/

namespace RailReader

/-! ### Data model (`src/layout.rs`, lines 53-81) -/

/-- Axis-aligned bounding box in page points (`struct BBox`). -/
structure BBox where
  x : ℚ
  y : ℚ
  w : ℚ
  h : ℚ
deriving DecidableEq

/-- One detected text line: vertical center and height (`struct LineInfo`). -/
structure LineInfo where
  y : ℚ
  height : ℚ
deriving DecidableEq

/-- One layout block (`struct LayoutBlock`). -/
structure LayoutBlock where
  bbox : BBox
  class_id : ℕ
  confidence : ℚ
  order : ℕ
  lines : List LineInfo
deriving DecidableEq

instance : Inhabited LayoutBlock :=
  ⟨{ bbox := ⟨0, 0, 0, 0⟩, class_id := 0, confidence := 0, order := 0, lines := [] }⟩

/-- The analysis of one page (`struct PageAnalysis`). -/
structure PageAnalysis where
  blocks : List LayoutBlock
  page_width : ℚ
  page_height : ℚ
deriving DecidableEq

/-- The eight navigable class ids (`NAVIGABLE_CLASSES`, layout.rs:38-47). -/
def NAVIGABLE_CLASSES : List ℕ := [0, 1, 2, 4, 6, 7, 11, 22]

/-- Whether a class id is navigable (`is_navigable`, layout.rs:49-51). -/
def is_navigable (class_id : ℕ) : Bool :=
  NAVIGABLE_CLASSES.contains class_id

/-! ### Intersection-over-union (`iou`, layout.rs:325-341) -/

/-- IoU of two boxes, 0 when the union area is non-positive. -/
def iou (a b : BBox) : ℚ :=
  let x1 := max a.x b.x
  let y1 := max a.y b.y
  let x2 := min (a.x + a.w) (b.x + b.w)
  let y2 := min (a.y + a.h) (b.y + b.h)
  let inter := max (x2 - x1) 0 * max (y2 - y1) 0
  let area_a := a.w * a.h
  let area_b := b.w * b.h
  let uni := area_a + area_b - inter
  if uni ≤ 0 then 0 else inter / uni

/-! ### Non-maximum suppression (`nms`, layout.rs:343-369)

The source sorts the block vector descending by confidence, keeps a
`keep` bit per block, and for each still-kept block `i` in order clears
the bit of every later still-kept block `j` with `iou > threshold`;
finally it retains the kept blocks in order.  Because a cleared block is
skipped both as suppressor and as suppressee, this keep-bit loop is the
classic greedy recursion below: keep the head, drop every later block
that overlaps it beyond the threshold, recurse on the rest. -/

/-- The keep-bit loop of `nms` on an already-sorted list. -/
def nmsKeep (threshold : ℚ) : List LayoutBlock → List LayoutBlock
  | [] => []
  | b :: rest =>
      b :: nmsKeep threshold (rest.filter (fun c => decide (iou b.bbox c.bbox ≤ threshold)))
termination_by l => l.length
decreasing_by
  simp only [List.length_cons]
  exact Nat.lt_succ_of_le (List.length_filter_le _ _)

/-- Full `nms`: stable sort descending by confidence (Rust `sort_by` with
`b.confidence.partial_cmp(&a.confidence)`; `List.mergeSort` is stable,
like Rust's sort), then the greedy suppression loop.  The source's
`partial_cmp(..).unwrap()` panics on NaN confidences; in this `ℚ` model
confidences are always comparable. -/
def nms (blocks : List LayoutBlock) (threshold : ℚ) : List LayoutBlock :=
  nmsKeep threshold
    (List.mergeSort blocks (fun a b => decide (b.confidence ≤ a.confidence)))

/-! #### NMS lemmas -/

theorem nmsKeep_subset (threshold : ℚ) :
    ∀ l : List LayoutBlock, nmsKeep threshold l ⊆ l := by
  intro l
  induction l using nmsKeep.induct threshold with
  | case1 => simp [nmsKeep]
  | case2 b rest ih =>
      rw [nmsKeep]
      intro x hx
      rcases List.mem_cons.1 hx with h | h
      · exact h ▸ List.mem_cons_self _ _
      · exact List.mem_cons_of_mem _ (List.mem_of_mem_filter (ih h))

theorem nmsKeep_pairwise (threshold : ℚ) :
    ∀ l : List LayoutBlock,
      (nmsKeep threshold l).Pairwise (fun a b => iou a.bbox b.bbox ≤ threshold) := by
  intro l
  induction l using nmsKeep.induct threshold with
  | case1 => simp [nmsKeep]
  | case2 b rest ih =>
      rw [nmsKeep]
      refine List.pairwise_cons.2 ⟨fun c hc => ?_, ih⟩
      have hc' := nmsKeep_subset threshold _ hc
      have := List.of_mem_filter hc'
      simpa using this

/-- Every block dropped by the keep-bit loop of a sorted list overlaps
(beyond the threshold) some surviving block of no smaller confidence. -/
theorem nmsKeep_suppressed (threshold : ℚ) :
    ∀ l : List LayoutBlock,
      l.Pairwise (fun a b => b.confidence ≤ a.confidence) →
      ∀ x ∈ l, x ∉ nmsKeep threshold l →
        ∃ a ∈ nmsKeep threshold l,
          threshold < iou a.bbox x.bbox ∧ x.confidence ≤ a.confidence := by
  intro l
  induction l using nmsKeep.induct threshold with
  | case1 => intro _ x hx; exact absurd hx (List.not_mem_nil x)
  | case2 b rest ih =>
      intro hsorted x hx hxout
      rw [nmsKeep] at hxout ⊢
      rcases List.mem_cons.1 hx with rfl | hxrest
      · exact absurd (List.mem_cons_self _ _) hxout
      · have hconf : x.confidence ≤ b.confidence :=
          (List.pairwise_cons.1 hsorted).1 x hxrest
        by_cases hover : iou b.bbox x.bbox ≤ threshold
        · -- x survives the filter; recurse
          have hxfil : x ∈ rest.filter (fun c => decide (iou b.bbox c.bbox ≤ threshold)) :=
            List.mem_filter.2 ⟨hxrest, by simpa using hover⟩
          have hsorted' :
              (rest.filter (fun c => decide (iou b.bbox c.bbox ≤ threshold))).Pairwise
                (fun a b => b.confidence ≤ a.confidence) :=
            (List.pairwise_cons.1 hsorted).2.filter _
          have hxout' : x ∉ nmsKeep threshold
              (rest.filter (fun c => decide (iou b.bbox c.bbox ≤ threshold))) :=
            fun h => hxout (List.mem_cons_of_mem _ h)
          obtain ⟨a, ha, hai, hac⟩ := ih hsorted' x hxfil hxout'
          exact ⟨a, List.mem_cons_of_mem _ ha, hai, hac⟩
        · exact ⟨b, List.mem_cons_self _ _, lt_of_not_le hover, hconf⟩

theorem mergeSort_conf_sorted (blocks : List LayoutBlock) :
    (List.mergeSort blocks (fun a b => decide (b.confidence ≤ a.confidence))).Pairwise
      (fun a b => b.confidence ≤ a.confidence) := by
  have h := @List.sorted_mergeSort LayoutBlock
      (fun a b : LayoutBlock => decide (b.confidence ≤ a.confidence))
      (fun a b c => by
        simp only [decide_eq_true_eq]
        exact fun h1 h2 => le_trans h2 h1)
      (fun a b => by
        simp only [Bool.or_eq_true, decide_eq_true_eq]
        exact le_total b.confidence a.confidence)
      blocks
  exact h.imp (by simp)

/-! #### Claim C1 -/

/-- Concrete blocks for the C1 counterexample: three equal-size boxes in a
chain.  `cexA` overlaps `cexB` (IoU 7/13), `cexB` overlaps `cexC`
(IoU 7/13), `cexA` and `cexC` barely overlap (IoU 1/4). -/
def cexA : LayoutBlock :=
  { bbox := ⟨0, 0, 10, 10⟩, class_id := 2, confidence := 9/10, order := 0, lines := [] }

def cexB : LayoutBlock :=
  { bbox := ⟨3, 0, 10, 10⟩, class_id := 2, confidence := 4/5, order := 0, lines := [] }

def cexC : LayoutBlock :=
  { bbox := ⟨6, 0, 10, 10⟩, class_id := 2, confidence := 7/10, order := 0, lines := [] }

theorem nms_cex_eval : nms [cexA, cexB, cexC] (1/2) = [cexA, cexC] := by
  norm_num [nms, nmsKeep, List.mergeSort, List.merge, iou, cexA, cexB, cexC]

theorem cexB_not_mem_nms : cexB ∉ nms [cexA, cexB, cexC] (1/2) := by
  rw [nms_cex_eval]
  intro h
  rcases List.mem_cons.1 h with h | h
  · exact absurd (congrArg (fun b => b.bbox.x) h) (by norm_num [cexA, cexB])
  · rcases List.mem_cons.1 h with h | h
    · exact absurd (congrArg (fun b => b.bbox.x) h) (by norm_num [cexB, cexC])
    · exact absurd h (List.not_mem_nil _)

/-- C1 (amended): after `nms` with threshold 1/2, every pair of surviving
blocks has IoU ≤ 1/2, and every suppressed block overlaps (IoU > 1/2)
some surviving block of no smaller confidence.  (The original claim's
clause that the highest-confidence member of every mutually-overlapping
cluster survives is refuted by `nms_cluster_counterexample`.) -/
theorem nms_soundness (blocks : List LayoutBlock) :
    (nms blocks (1/2)).Pairwise (fun a b => iou a.bbox b.bbox ≤ 1/2) ∧
    (∀ x ∈ blocks, x ∉ nms blocks (1/2) →
      ∃ a ∈ nms blocks (1/2), 1/2 < iou a.bbox x.bbox ∧ x.confidence ≤ a.confidence) := by
  constructor
  · exact nmsKeep_pairwise _ _
  · intro x hx hxout
    have hxs : x ∈ List.mergeSort blocks (fun a b => decide (b.confidence ≤ a.confidence)) :=
      (List.mergeSort_perm blocks _).mem_iff.2 hx
    exact nmsKeep_suppressed _ _ (mergeSort_conf_sorted blocks) x hxs hxout

/-- C1 counterexample: `[cexB, cexC]` is a mutually-overlapping cluster
(pairwise IoU > 1/2) of the input `[cexA, cexB, cexC]`, whose
highest-confidence member `cexB` does not survive `nms` with threshold
1/2 (it is suppressed by the outside block `cexA`). -/
theorem nms_cluster_counterexample :
    (1/2 : ℚ) < iou cexB.bbox cexC.bbox ∧ cexC.confidence ≤ cexB.confidence ∧
    cexB ∈ [cexA, cexB, cexC] ∧ cexB ∉ nms [cexA, cexB, cexC] (1/2) := by
  refine ⟨by norm_num [iou, cexB, cexC], by norm_num [cexB, cexC], by simp, cexB_not_mem_nms⟩

theorem nms_soundness_witness :
    cexB ∈ [cexA, cexB, cexC] ∧ cexB ∉ nms [cexA, cexB, cexC] (1/2) ∧
    ∃ a ∈ nms [cexA, cexB, cexC] (1/2),
      1/2 < iou a.bbox cexB.bbox ∧ cexB.confidence ≤ a.confidence :=
  ⟨by simp, cexB_not_mem_nms,
    (nms_soundness [cexA, cexB, cexC]).2 cexB (by simp) cexB_not_mem_nms⟩

/-! ### Rail navigation state machine (`src/rail.rs`)

Stateful methods become pure functions `RailNav → ... → Option (...)`;
a `none` result models a Rust panic (an `unwrap` of `None`, an
out-of-range `Vec` index, a `usize` subtraction overflow, or
`f64::clamp` with `min > max`).  `std::time::Instant` values are `ℚ`
timestamps passed explicitly as `now`. -/

/-- Result of a cursor move (`enum NavResult`). -/
inductive NavResult where
  | Ok
  | PageBoundaryNext
  | PageBoundaryPrev
deriving DecidableEq

/-- Held-scroll direction (`enum ScrollDir`). -/
inductive ScrollDir where
  | Forward
  | Backward
deriving DecidableEq

/-- Snap animation state (`struct SnapAnimation`, rail.rs:27-34). -/
structure SnapAnimation where
  start_x : ℚ
  start_y : ℚ
  target_x : ℚ
  target_y : ℚ
  start_time : ℚ
  duration_ms : ℚ
deriving DecidableEq

/-- The navigator state (`struct RailNav`, rail.rs:36-47). -/
structure RailNav where
  analysis : Option PageAnalysis
  navigable_indices : List ℕ
  current_block : ℕ
  current_line : ℕ
  active : Bool
  snap : Option SnapAnimation
  scroll_dir : Option ScrollDir
  scroll_hold_start : Option ℚ
deriving DecidableEq

/-- Initial state (`RailNav::new`, rail.rs:56-67). -/
def RailNav.new : RailNav :=
  { analysis := none, navigable_indices := [], current_block := 0, current_line := 0,
    active := false, snap := none, scroll_dir := none, scroll_hold_start := none }

def SNAP_DURATION_MS : ℚ := 300

def SCROLL_SPEED_START : ℚ := 60

def SCROLL_SPEED_MAX : ℚ := 400

def SCROLL_RAMP_TIME : ℚ := 3/2

/-- The block under the cursor (`current_navigable_block`, rail.rs:331-335).
The source unwraps `analysis` and indexes two `Vec`s unguarded; each of
those panics is a `none` here. -/
def current_navigable_block (s : RailNav) : Option LayoutBlock := do
  let a ← s.analysis
  let bi ← s.navigable_indices[s.current_block]?
  a.blocks[bi]?

/-- Advance to the next line / block (`next_line`, rail.rs:144-163). -/
def next_line (s : RailNav) : Option (RailNav × NavResult) :=
  if s.active = false ∨ s.navigable_indices = [] then some (s, .Ok)
  else do
    let block ← current_navigable_block s
    let line_count := block.lines.length
    if s.current_line + 1 < line_count then
      some ({ s with current_line := s.current_line + 1 }, .Ok)
    else if s.current_block + 1 < s.navigable_indices.length then
      some ({ s with current_block := s.current_block + 1, current_line := 0 }, .Ok)
    else
      some (s, .PageBoundaryNext)

/-- Move to the previous line / block (`prev_line`, rail.rs:165-182).
The source's `saturating_sub(1)` is `Nat` subtraction here. -/
def prev_line (s : RailNav) : Option (RailNav × NavResult) :=
  if s.active = false ∨ s.navigable_indices = [] then some (s, .Ok)
  else if 0 < s.current_line then
    some ({ s with current_line := s.current_line - 1 }, .Ok)
  else if 0 < s.current_block then do
    let block ← current_navigable_block { s with current_block := s.current_block - 1 }
    some ({ s with current_block := s.current_block - 1,
                   current_line := block.lines.length - 1 }, .Ok)
  else
    some (s, .PageBoundaryPrev)

/-- Begin a held scroll (`start_scroll`, rail.rs:184-193). -/
def start_scroll (s : RailNav) (dir : ScrollDir) (now : ℚ) : RailNav :=
  if s.active = false ∨ s.navigable_indices = [] then s
  else if s.scroll_dir ≠ some dir then
    { s with scroll_dir := some dir, scroll_hold_start := some now }
  else s

/-- End a held scroll (`stop_scroll`, rail.rs:196-199). -/
def stop_scroll (s : RailNav) : RailNav :=
  { s with scroll_dir := none, scroll_hold_start := none }

/-- Clamp camera X to the current block (`clamp_x`, rail.rs:202-224).
Rust's `f64::clamp` panics when `min > max`; that case is the final
`none` (the lemmas show it cannot be reached). -/
def clamp_x (s : RailNav) (camera_x zoom window_width : ℚ) : Option ℚ :=
  if s.navigable_indices = [] then some camera_x
  else do
    let block ← current_navigable_block s
    let margin := block.bbox.w * (5/100)
    let block_left := block.bbox.x - margin
    let block_right := block.bbox.x + block.bbox.w + margin
    let block_width_px := (block_right - block_left) * zoom
    if block_width_px ≤ window_width then
      let center := (block_left + block_right) / 2
      some (window_width / 2 - center * zoom)
    else
      let max_x := -block_left * zoom
      let min_x := window_width - block_right * zoom
      if min_x ≤ max_x then some (max min_x (min camera_x max_x)) else none

/-- The line under the cursor (`current_line_info`, rail.rs:337-340).
With an empty `lines` vector the source's `len() - 1` underflows
(a panic), modelled by the explicit `none` branch. -/
def current_line_info (s : RailNav) : Option LineInfo := do
  let block ← current_navigable_block s
  if block.lines.length = 0 then none
  else block.lines[min s.current_line (block.lines.length - 1)]?

/-- Camera target framing the start of the current line
(`compute_target_camera`, rail.rs:253-269). -/
def compute_target_camera (s : RailNav) (zoom window_width window_height : ℚ) :
    Option (ℚ × ℚ) := do
  let block ← current_navigable_block s
  let line ← current_line_info s
  let target_y := window_height / 2 - line.y * zoom
  let target_x := window_width * (5/100) - block.bbox.x * zoom
  some (target_x, target_y)

/-- Begin a snap animation to the current line
(`start_snap_to_current`, rail.rs:227-249). -/
def start_snap_to_current
    (s : RailNav) (camera_x camera_y zoom window_width window_height now : ℚ) :
    Option RailNav :=
  if s.active = false ∨ s.navigable_indices = [] then some s
  else do
    let tgt ← compute_target_camera s zoom window_width window_height
    let snap : SnapAnimation :=
      { start_x := camera_x, start_y := camera_y, target_x := tgt.1, target_y := tgt.2,
        start_time := now, duration_ms := SNAP_DURATION_MS }
    some { s with snap := some snap }

/-- One animation frame (`tick`, rail.rs:272-315): advance the snap
animation, then the held scroll; returns the updated state, the new
camera position, and whether anything is still animating. -/
def tick (s : RailNav) (camera_x camera_y dt_secs zoom window_width now : ℚ) :
    Option (RailNav × ℚ × ℚ × Bool) :=
  let snapStep : RailNav × ℚ × ℚ × Bool :=
    match s.snap with
    | none => (s, camera_x, camera_y, false)
    | some snap =>
      let elapsed := (now - snap.start_time) * 1000
      let t := min (elapsed / snap.duration_ms) 1
      let eased := 1 - (1 - t) ^ 3
      let cx := snap.start_x + (snap.target_x - snap.start_x) * eased
      let cy := snap.start_y + (snap.target_y - snap.start_y) * eased
      if 1 ≤ t then ({ s with snap := none }, cx, cy, false)
      else (s, cx, cy, true)
  match snapStep with
  | (s1, cx1, cy1, anim1) =>
    match s1.scroll_dir, s1.scroll_hold_start with
    | some dir, some hold_start => do
        let hold_secs := now - hold_start
        let t := min (hold_secs / SCROLL_RAMP_TIME) 1
        let speed := SCROLL_SPEED_START + (SCROLL_SPEED_MAX - SCROLL_SPEED_START) * t * t
        let delta := speed * dt_secs * zoom
        let new_x :=
          match dir with
          | ScrollDir.Forward => cx1 - delta
          | ScrollDir.Backward => cx1 + delta
        let cx2 ← clamp_x s1 new_x zoom window_width
        some (s1, cx2, cy1, true)
    | _, _ => some (s1, cx1, cy1, anim1)

/-- Whether any animation is running (`is_animating`, rail.rs:317-319). -/
def is_animating (s : RailNav) : Bool :=
  s.snap.isSome || s.scroll_dir.isSome

/-- Jump to the last block's last line (`jump_to_end`, rail.rs:322-329). -/
def jump_to_end (s : RailNav) : Option RailNav :=
  if s.navigable_indices = [] then some s
  else do
    let block ← current_navigable_block
      { s with current_block := s.navigable_indices.length - 1 }
    some { s with current_block := s.navigable_indices.length - 1,
                  current_line := block.lines.length - 1 }

/-- Number of navigable blocks (`navigable_count`, rail.rs:342-344). -/
def navigable_count (s : RailNav) : ℕ :=
  s.navigable_indices.length

/-- Line count of the current block (`current_line_count`, rail.rs:346-351). -/
def current_line_count (s : RailNav) : Option ℕ :=
  if s.navigable_indices = [] then some 0
  else do
    let block ← current_navigable_block s
    some block.lines.length

/-! #### Claim C5 -/

/-- Normal form of `clamp_x` on a state with a non-empty navigable set
and a resolvable current block. -/
theorem clamp_x_eq (s : RailNav) (block : LayoutBlock) (camera_x zoom window_width : ℚ)
    (hne : s.navigable_indices ≠ [])
    (hblk : current_navigable_block s = some block) :
    clamp_x s camera_x zoom window_width =
      (if ((block.bbox.x + block.bbox.w + block.bbox.w * (5/100)) -
            (block.bbox.x - block.bbox.w * (5/100))) * zoom ≤ window_width then
        some (window_width / 2 -
          (((block.bbox.x - block.bbox.w * (5/100)) +
            (block.bbox.x + block.bbox.w + block.bbox.w * (5/100))) / 2) * zoom)
      else if window_width - (block.bbox.x + block.bbox.w + block.bbox.w * (5/100)) * zoom ≤
          -(block.bbox.x - block.bbox.w * (5/100)) * zoom then
        some (max (window_width - (block.bbox.x + block.bbox.w + block.bbox.w * (5/100)) * zoom)
          (min camera_x (-(block.bbox.x - block.bbox.w * (5/100)) * zoom)))
      else none) := by
  rw [clamp_x, if_neg hne, hblk]
  rfl

/-- The `f64::clamp` panic inside `clamp_x` is unreachable: in the branch
that clamps, the interval is always non-empty. -/
theorem clamp_x_isSome (s : RailNav)
    (h : s.navigable_indices ≠ [] → (current_navigable_block s).isSome)
    (camera_x zoom window_width : ℚ) :
    (clamp_x s camera_x zoom window_width).isSome := by
  by_cases hne : s.navigable_indices = []
  · rw [clamp_x, if_pos hne]
    rfl
  · obtain ⟨b, hb⟩ := Option.isSome_iff_exists.1 (h hne)
    rw [clamp_x_eq s b camera_x zoom window_width hne hb]
    by_cases hfit : ((b.bbox.x + b.bbox.w + b.bbox.w * (5/100)) -
        (b.bbox.x - b.bbox.w * (5/100))) * zoom ≤ window_width
    · rw [if_pos hfit]
      rfl
    · have horder : window_width - (b.bbox.x + b.bbox.w + b.bbox.w * (5/100)) * zoom ≤
          -(b.bbox.x - b.bbox.w * (5/100)) * zoom := by
        have h' := lt_of_not_le hfit
        nlinarith [h']
      rw [if_neg hfit, if_pos horder]
      rfl

/-- C5: with the current block's bbox expanded by a 5% margin on each
side, `clamp_x` never panics and either centers the margined block (when
its on-screen width fits the viewport) or clamps the candidate camera-x
into `[window_width - block_right * zoom, -block_left * zoom]` (acting as
the identity when the candidate is already in range), so the block never
leaves the clamp range. -/
theorem clamp_x_invariant (s : RailNav) (block : LayoutBlock)
    (camera_x zoom window_width : ℚ)
    (hne : s.navigable_indices ≠ [])
    (hblk : current_navigable_block s = some block)
    (_hzoom : 0 < zoom) :
    ∃ r, clamp_x s camera_x zoom window_width = some r ∧
      (((block.bbox.x + block.bbox.w + block.bbox.w * (5/100)) -
          (block.bbox.x - block.bbox.w * (5/100))) * zoom ≤ window_width →
        r = window_width / 2 -
          (((block.bbox.x - block.bbox.w * (5/100)) +
            (block.bbox.x + block.bbox.w + block.bbox.w * (5/100))) / 2) * zoom) ∧
      (window_width <
          ((block.bbox.x + block.bbox.w + block.bbox.w * (5/100)) -
            (block.bbox.x - block.bbox.w * (5/100))) * zoom →
        window_width - (block.bbox.x + block.bbox.w + block.bbox.w * (5/100)) * zoom ≤ r ∧
        r ≤ -(block.bbox.x - block.bbox.w * (5/100)) * zoom ∧
        (window_width - (block.bbox.x + block.bbox.w + block.bbox.w * (5/100)) * zoom ≤ camera_x ∧
          camera_x ≤ -(block.bbox.x - block.bbox.w * (5/100)) * zoom →
          r = camera_x)) := by
  rw [clamp_x_eq s block camera_x zoom window_width hne hblk]
  set bl := block.bbox.x - block.bbox.w * (5/100) with hbl
  set br := block.bbox.x + block.bbox.w + block.bbox.w * (5/100) with hbr
  by_cases hfit : (br - bl) * zoom ≤ window_width
  · refine ⟨window_width / 2 - ((bl + br) / 2) * zoom, ?_, fun _ => rfl, fun hlt => ?_⟩
    · simp only [if_pos hfit]
    · exact absurd hfit (not_le.2 hlt)
  · have horder : window_width - br * zoom ≤ -bl * zoom := by
      have h' : window_width < (br - bl) * zoom := lt_of_not_le hfit
      nlinarith [h']
    rw [if_neg hfit, if_pos horder]
    refine ⟨max (window_width - br * zoom) (min camera_x (-bl * zoom)), rfl, ?_, fun _ => ?_⟩
    · intro hle; exact absurd hle hfit
    · refine ⟨le_max_left _ _, ?_, ?_⟩
      · exact max_le horder (min_le_right _ _)
      · rintro ⟨h1, h2⟩
        rw [min_eq_left h2, max_eq_right h1]

/-- A concrete one-block analysis and navigator used by several witnesses. -/
def wBlock : LayoutBlock :=
  { bbox := ⟨10, 10, 100, 100⟩, class_id := 2, confidence := 1, order := 0,
    lines := [⟨40, 20⟩, ⟨80, 20⟩] }

def wAnalysis : PageAnalysis :=
  { blocks := [wBlock], page_width := 200, page_height := 200 }

def wNav : RailNav :=
  { RailNav.new with analysis := some wAnalysis, navigable_indices := [0], active := true }

theorem clamp_x_invariant_witness :
    ∃ r, clamp_x wNav 0 2 100 = some r ∧
      100 - (10 + 100 + 100 * (5/100)) * 2 ≤ r ∧ r ≤ -(10 - 100 * (5/100)) * 2 := by
  have h := clamp_x_invariant wNav wBlock 0 2 100 (by simp [wNav, RailNav.new]) rfl
      (by norm_num)
  obtain ⟨r, hr, -, hclamp⟩ := h
  have hc := hclamp (by norm_num [wBlock])
  refine ⟨r, hr, ?_, ?_⟩
  · simpa [wBlock] using hc.1
  · simpa [wBlock] using hc.2.1

/-! #### Claim C8 -/

/-- C8: while Inactive or with an empty navigable set, `next_line`,
`prev_line`, `start_scroll` and `start_snap_to_current` are no-ops
returning a neutral result with the whole state unchanged; and whenever
`next_line` / `prev_line` return a page-boundary result, the state (in
particular the cursor) is not mutated. -/
theorem neutral_noop_semantics :
    (∀ s : RailNav, s.active = false ∨ s.navigable_indices = [] →
      next_line s = some (s, NavResult.Ok) ∧
      prev_line s = some (s, NavResult.Ok) ∧
      (∀ dir now, start_scroll s dir now = s) ∧
      (∀ cx cy zoom ww wh now, start_snap_to_current s cx cy zoom ww wh now = some s)) ∧
    (∀ s s' : RailNav, next_line s = some (s', NavResult.PageBoundaryNext) → s' = s) ∧
    (∀ s s' : RailNav, prev_line s = some (s', NavResult.PageBoundaryPrev) → s' = s) := by
  refine ⟨fun s h => ?_, fun s s' h => ?_, fun s s' h => ?_⟩
  · refine ⟨?_, ?_, fun dir now => ?_, fun cx cy zoom ww wh now => ?_⟩
    · rw [next_line, if_pos h]
    · rw [prev_line, if_pos h]
    · rw [start_scroll, if_pos h]
    · rw [start_snap_to_current, if_pos h]
  · -- a PageBoundaryNext result can only come from the unchanged-state branch
    by_cases hg : s.active = false ∨ s.navigable_indices = []
    · rw [next_line, if_pos hg] at h
      simp at h
    · rw [next_line, if_neg hg] at h
      cases hc : current_navigable_block s with
      | none => rw [hc] at h; simp at h
      | some b =>
          rw [hc] at h
          simp only [Option.bind_eq_bind, Option.some_bind] at h
          split at h
          · simp at h
          · split at h
            · simp at h
            · simp only [Option.some.injEq, Prod.mk.injEq] at h
              exact h.1.symm
  · by_cases hg : s.active = false ∨ s.navigable_indices = []
    · rw [prev_line, if_pos hg] at h
      simp at h
    · rw [prev_line, if_neg hg] at h
      split at h
      · simp at h
      · split at h
        · cases hc : current_navigable_block { s with current_block := s.current_block - 1 } with
          | none => rw [hc] at h; simp at h
          | some b =>
              rw [hc] at h
              simp only [Option.bind_eq_bind, Option.some_bind] at h
              simp at h
        · simp only [Option.some.injEq, Prod.mk.injEq] at h
          exact h.1.symm

theorem neutral_noop_semantics_witness :
    next_line RailNav.new = some (RailNav.new, NavResult.Ok) ∧
    prev_line RailNav.new = some (RailNav.new, NavResult.Ok) ∧
    start_scroll RailNav.new ScrollDir.Forward 0 = RailNav.new ∧
    start_snap_to_current RailNav.new 0 0 1 800 600 0 = some RailNav.new := by
  have h := neutral_noop_semantics.1 RailNav.new (Or.inl rfl)
  exact ⟨h.1, h.2.1, h.2.2.1 ScrollDir.Forward 0, h.2.2.2 0 0 1 800 600 0⟩

/-! #### Claim C10 -/

/-- C10: while a snap animation is stored and no scroll direction is
held, `tick` overwrites both camera coordinates with values interpolated
purely from the snap's stored endpoints and the elapsed time (the camera
position passed in has no effect), returns `true` exactly while the
clamped progress `t` is below 1, and destroys the snap once `t` reaches
1. -/
theorem tick_snap_semantics (s : RailNav) (snap : SnapAnimation)
    (camera_x camera_y dt_secs zoom window_width now : ℚ)
    (hsnap : s.snap = some snap) (hscroll : s.scroll_dir = none) :
    (min ((now - snap.start_time) * 1000 / snap.duration_ms) 1 < 1 →
      tick s camera_x camera_y dt_secs zoom window_width now =
        some (s,
          snap.start_x + (snap.target_x - snap.start_x) *
            (1 - (1 - min ((now - snap.start_time) * 1000 / snap.duration_ms) 1) ^ 3),
          snap.start_y + (snap.target_y - snap.start_y) *
            (1 - (1 - min ((now - snap.start_time) * 1000 / snap.duration_ms) 1) ^ 3),
          true)) ∧
    (1 ≤ min ((now - snap.start_time) * 1000 / snap.duration_ms) 1 →
      tick s camera_x camera_y dt_secs zoom window_width now =
        some ({ s with snap := none },
          snap.start_x + (snap.target_x - snap.start_x) *
            (1 - (1 - min ((now - snap.start_time) * 1000 / snap.duration_ms) 1) ^ 3),
          snap.start_y + (snap.target_y - snap.start_y) *
            (1 - (1 - min ((now - snap.start_time) * 1000 / snap.duration_ms) 1) ^ 3),
          false)) ∧
    (∀ cx' cy', tick s cx' cy' dt_secs zoom window_width now =
      tick s camera_x camera_y dt_secs zoom window_width now) := by
  have hmain : ∀ cx cy : ℚ,
      tick s cx cy dt_secs zoom window_width now =
        (if 1 ≤ min ((now - snap.start_time) * 1000 / snap.duration_ms) 1 then
          some ({ s with snap := none },
            snap.start_x + (snap.target_x - snap.start_x) *
              (1 - (1 - min ((now - snap.start_time) * 1000 / snap.duration_ms) 1) ^ 3),
            snap.start_y + (snap.target_y - snap.start_y) *
              (1 - (1 - min ((now - snap.start_time) * 1000 / snap.duration_ms) 1) ^ 3),
            false)
        else
          some (s,
            snap.start_x + (snap.target_x - snap.start_x) *
              (1 - (1 - min ((now - snap.start_time) * 1000 / snap.duration_ms) 1) ^ 3),
            snap.start_y + (snap.target_y - snap.start_y) *
              (1 - (1 - min ((now - snap.start_time) * 1000 / snap.duration_ms) 1) ^ 3),
            true)) := by
    intro cx cy
    rw [tick, hsnap]
    by_cases ht : 1 ≤ min ((now - snap.start_time) * 1000 / snap.duration_ms) 1
    · rw [if_pos ht]
      simp only [if_pos ht]
      have : ({ s with snap := none } : RailNav).scroll_dir = none := hscroll
      rw [this]
    · rw [if_neg ht]
      simp only [if_neg ht]
      rw [hscroll]
  refine ⟨fun ht => ?_, fun ht => ?_, fun cx' cy' => ?_⟩
  · rw [hmain camera_x camera_y, if_neg (not_le.2 ht)]
  · rw [hmain camera_x camera_y, if_pos ht]
  · rw [hmain cx' cy', hmain camera_x camera_y]

theorem tick_snap_semantics_witness :
    tick { RailNav.new with snap := some ⟨0, 0, 10, 20, 0, 300⟩ } 77 88 (1/60) 3 800 (3/20) =
      some ({ RailNav.new with snap := some ⟨0, 0, 10, 20, 0, 300⟩ }, 35/4, 35/2, true) := by
  have h := (tick_snap_semantics { RailNav.new with snap := some ⟨0, 0, 10, 20, 0, 300⟩ }
      ⟨0, 0, 10, 20, 0, 300⟩ 77 88 (1/60) 3 800 (3/20) rfl rfl).1 (by norm_num)
  rw [h]
  norm_num

/-! #### Claim C4 -/

/-- The navigable block at position `i` of the navigable index (the body
of `current_navigable_block` with the cursor generalized). -/
def navBlockAt (s : RailNav) (i : ℕ) : Option LayoutBlock := do
  let a ← s.analysis
  let bi ← s.navigable_indices[i]?
  a.blocks[bi]?

theorem navBlockAt_current (s : RailNav) :
    navBlockAt s s.current_block = current_navigable_block s := rfl

/-- Line count of the navigable block at position `i` (0 if absent). -/
def blockLines (s : RailNav) (i : ℕ) : ℕ :=
  match navBlockAt s i with
  | some b => b.lines.length
  | none => 0

/-- Total line count over all navigable blocks (the spec's
`total_line_count`). -/
def total_line_count (s : RailNav) : ℕ :=
  ((List.range s.navigable_indices.length).map (blockLines s)).sum

/-- Number of `next_line` steps from the cursor to (and including) the
final line of the page. -/
def lines_remaining (s : RailNav) : ℕ :=
  ((List.range' s.current_block (s.navigable_indices.length - s.current_block)).map
    (blockLines s)).sum - s.current_line

/-- Well-formed Active navigator: active, non-empty navigable set, the
cursor's block position in range, every navigable position resolving to a
block with at least one line, and the cursor's line in range.  This is
the documented reachable-state invariant of `RailNav`. -/
def Inv (s : RailNav) : Prop :=
  s.active = true ∧ s.navigable_indices ≠ [] ∧
  s.current_block < s.navigable_indices.length ∧
  (∀ i < s.navigable_indices.length, ∃ b, navBlockAt s i = some b ∧ b.lines ≠ []) ∧
  s.current_line < blockLines s s.current_block

/-- Normal form of `next_line` on a guarded state. -/
theorem next_line_eq (s : RailNav) (b : LayoutBlock)
    (hg : ¬(s.active = false ∨ s.navigable_indices = []))
    (hb : current_navigable_block s = some b) :
    next_line s =
      (if s.current_line + 1 < b.lines.length then
        some ({ s with current_line := s.current_line + 1 }, NavResult.Ok)
      else if s.current_block + 1 < s.navigable_indices.length then
        some ({ s with current_block := s.current_block + 1, current_line := 0 },
          NavResult.Ok)
      else some (s, NavResult.PageBoundaryNext)) := by
  rw [next_line, if_neg hg, hb]
  rfl

/-- Normal form of `prev_line` on a guarded state. -/
theorem prev_line_eq (s : RailNav)
    (hg : ¬(s.active = false ∨ s.navigable_indices = [])) :
    prev_line s =
      (if 0 < s.current_line then
        some ({ s with current_line := s.current_line - 1 }, NavResult.Ok)
      else if 0 < s.current_block then
        (current_navigable_block { s with current_block := s.current_block - 1 }).bind
          (fun block => some ({ s with current_block := s.current_block - 1,
                                       current_line := block.lines.length - 1 },
            NavResult.Ok))
      else some (s, NavResult.PageBoundaryPrev)) := by
  rw [prev_line, if_neg hg]
  rfl

theorem sum_range'_split (f : ℕ → ℕ) (a m : ℕ) (hm : 1 ≤ m) :
    ((List.range' a m).map f).sum = f a + ((List.range' (a + 1) (m - 1)).map f).sum := by
  obtain ⟨m', rfl⟩ : ∃ m', m = m' + 1 := ⟨m - 1, by omega⟩
  rw [List.range'_succ]
  simp

/-- One `next_line` step under the invariant: with more than one line
remaining it succeeds with `Ok`, preserves the invariant and decrements
the remaining count; with exactly one line remaining it reports the page
boundary without touching the state. -/
theorem next_line_step (s : RailNav) (hInv : Inv s) :
    (1 < lines_remaining s →
      ∃ s', next_line s = some (s', NavResult.Ok) ∧ Inv s' ∧
        lines_remaining s' + 1 = lines_remaining s) ∧
    (lines_remaining s = 1 → next_line s = some (s, NavResult.PageBoundaryNext)) ∧
    1 ≤ lines_remaining s := by
  obtain ⟨hact, hne, hcb, hall, hcl⟩ := hInv
  obtain ⟨b, hb, hbne⟩ := hall s.current_block hcb
  have hg : ¬(s.active = false ∨ s.navigable_indices = []) := by
    push_neg
    exact ⟨by simp [hact], hne⟩
  have hcnb : current_navigable_block s = some b := hb
  have hLb : blockLines s s.current_block = b.lines.length := by
    rw [blockLines, hb]
  have heq := next_line_eq s b hg hcnb
  have hsplit := sum_range'_split (blockLines s) s.current_block
    (s.navigable_indices.length - s.current_block) (by omega)
  have hm' : s.navigable_indices.length - s.current_block - 1 =
      s.navigable_indices.length - (s.current_block + 1) := by omega
  rw [hm'] at hsplit
  set S' := ((List.range' (s.current_block + 1)
      (s.navigable_indices.length - (s.current_block + 1))).map (blockLines s)).sum with hS'
  have hrem : lines_remaining s = b.lines.length + S' - s.current_line := by
    rw [lines_remaining, hsplit, hLb]
  have hclb : s.current_line < b.lines.length := by rw [hLb] at hcl; exact hcl
  have hS'pos : s.current_block + 1 < s.navigable_indices.length → 1 ≤ S' := by
    intro h2
    obtain ⟨b2, hb2, hb2ne⟩ := hall (s.current_block + 1) h2
    have hsplit2 := sum_range'_split (blockLines s) (s.current_block + 1)
      (s.navigable_indices.length - (s.current_block + 1)) (by omega)
    have hLb2 : blockLines s (s.current_block + 1) = b2.lines.length := by
      rw [blockLines, hb2]
    have : 0 < b2.lines.length := List.length_pos.2 hb2ne
    rw [← hS'] at hsplit2
    omega
  have hS'zero : ¬(s.current_block + 1 < s.navigable_indices.length) → S' = 0 := by
    intro h2
    have : s.navigable_indices.length - (s.current_block + 1) = 0 := by omega
    rw [hS', this]
    simp
  refine ⟨?_, ?_, by omega⟩
  · intro h1
    by_cases hc1 : s.current_line + 1 < b.lines.length
    · refine ⟨{ s with current_line := s.current_line + 1 }, by rw [heq, if_pos hc1], ?_, ?_⟩
      · refine ⟨hact, hne, hcb, fun i hi => hall i hi, ?_⟩
        show s.current_line + 1 < blockLines s s.current_block
        omega
      · show ((List.range' s.current_block
            (s.navigable_indices.length - s.current_block)).map (blockLines s)).sum -
            (s.current_line + 1) + 1 = lines_remaining s
        rw [hsplit, hLb, hrem]
        omega
    · by_cases hc2 : s.current_block + 1 < s.navigable_indices.length
      · refine ⟨{ s with current_block := s.current_block + 1, current_line := 0 },
          by rw [heq, if_neg hc1, if_pos hc2], ?_, ?_⟩
        · refine ⟨hact, hne, hc2, fun i hi => hall i hi, ?_⟩
          obtain ⟨b2, hb2, hb2ne⟩ := hall (s.current_block + 1) hc2
          show 0 < blockLines s (s.current_block + 1)
          rw [blockLines, hb2]
          exact List.length_pos.2 hb2ne
        · show ((List.range' (s.current_block + 1)
              (s.navigable_indices.length - (s.current_block + 1))).map (blockLines s)).sum -
              0 + 1 = lines_remaining s
          rw [← hS', hrem]
          omega
      · exact absurd rfl (by have := hS'zero hc2; omega : ¬(1 : ℕ) = 1)
  · intro h1
    have hnc1 : ¬(s.current_line + 1 < b.lines.length) := by
      intro hc1
      omega
    have hnc2 : ¬(s.current_block + 1 < s.navigable_indices.length) := by
      intro hc2
      have := hS'pos hc2
      omega
    rw [heq, if_neg hnc1, if_neg hnc2]

/-- On an invariant state, `next_line` followed by `prev_line` restores
the state whenever `next_line` did not hit the page boundary. -/
theorem next_prev_restores (s : RailNav) (hInv : Inv s) :
    ∀ s₁, next_line s = some (s₁, NavResult.Ok) → prev_line s₁ = some (s, NavResult.Ok) := by
  obtain ⟨hact, hne, hcb, hall, hcl⟩ := hInv
  obtain ⟨b, hb, hbne⟩ := hall s.current_block hcb
  have hg : ¬(s.active = false ∨ s.navigable_indices = []) := by
    push_neg
    exact ⟨by simp [hact], hne⟩
  have hcnb : current_navigable_block s = some b := hb
  have hLb : blockLines s s.current_block = b.lines.length := by
    rw [blockLines, hb]
  have hclb : s.current_line < b.lines.length := by rw [hLb] at hcl; exact hcl
  have heq := next_line_eq s b hg hcnb
  intro s₁ hnext
  rw [heq] at hnext
  by_cases hc1 : s.current_line + 1 < b.lines.length
  · rw [if_pos hc1] at hnext
    simp only [Option.some.injEq, Prod.mk.injEq, and_true] at hnext
    subst hnext
    have hg' : ¬(({ s with current_line := s.current_line + 1 } : RailNav).active = false ∨
        ({ s with current_line := s.current_line + 1 } : RailNav).navigable_indices = []) := hg
    rw [prev_line_eq _ hg', if_pos (by show 0 < s.current_line + 1; omega)]
    rfl
  · by_cases hc2 : s.current_block + 1 < s.navigable_indices.length
    · rw [if_neg hc1, if_pos hc2] at hnext
      simp only [Option.some.injEq, Prod.mk.injEq, and_true] at hnext
      subst hnext
      have hg' : ¬((({ s with current_block := s.current_block + 1, current_line := 0 }) :
            RailNav).active = false ∨
          (({ s with current_block := s.current_block + 1, current_line := 0 }) :
            RailNav).navigable_indices = []) := hg
      rw [prev_line_eq _ hg', if_neg (by show ¬(0 : ℕ) < 0; omega),
        if_pos (by show 0 < s.current_block + 1; omega)]
      have hcnb2 : current_navigable_block
          { ({ s with current_block := s.current_block + 1, current_line := 0 } : RailNav) with
            current_block :=
              ({ s with current_block := s.current_block + 1, current_line := 0 } :
                RailNav).current_block - 1 } = some b := hb
      rw [hcnb2, Option.some_bind]
      have hlen : b.lines.length = s.current_line + 1 := by omega
      rw [hlen]
      rfl
    · rw [if_neg hc1, if_neg hc2] at hnext
      simp at hnext

/-- Repeated application of `next_line`, following the updated state. -/
def iterate_next : ℕ → RailNav → RailNav
  | 0, s => s
  | k + 1, s =>
    match next_line s with
    | some (s', _) => iterate_next k s'
    | none => s

theorem iterate_next_inv (k : ℕ) :
    ∀ s : RailNav, Inv s → k + 1 ≤ lines_remaining s →
      Inv (iterate_next k s) ∧
      lines_remaining (iterate_next k s) = lines_remaining s - k := by
  induction k with
  | zero => intro s h _; exact ⟨h, by simp [iterate_next]⟩
  | succ k ih =>
      intro s hInv hk
      obtain ⟨s', hnext, hInv', hrem⟩ := (next_line_step s hInv).1 (by omega)
      have hit : iterate_next (k + 1) s = iterate_next k s' := by
        rw [iterate_next, hnext]
      obtain ⟨h2, h3⟩ := ih s' hInv' (by omega)
      rw [hit]
      exact ⟨h2, by omega⟩

/-- C4: on a well-formed Active navigator, `next_line` immediately
followed by `prev_line` restores the state whenever no page boundary was
reported; and starting from cursor (0,0), the first `total_line_count - 1`
calls of `next_line` return `Ok` while call number `total_line_count`
returns `PageBoundaryNext` and leaves the state unchanged. -/
theorem nav_reversibility_and_boundary (s : RailNav) (hInv : Inv s) :
    (∀ s₁, next_line s = some (s₁, NavResult.Ok) → prev_line s₁ = some (s, NavResult.Ok)) ∧
    (s.current_block = 0 → s.current_line = 0 →
      (∀ k, k + 1 < total_line_count s →
        ∃ s', next_line (iterate_next k s) = some (s', NavResult.Ok)) ∧
      next_line (iterate_next (total_line_count s - 1) s) =
        some (iterate_next (total_line_count s - 1) s, NavResult.PageBoundaryNext)) := by
  refine ⟨next_prev_restores s hInv, fun h0 h1 => ?_⟩
  have htot : lines_remaining s = total_line_count s := by
    rw [lines_remaining, total_line_count, h0, h1, List.range_eq_range']
    simp
  have hpos : 1 ≤ lines_remaining s := (next_line_step s hInv).2.2
  constructor
  · intro k hk
    obtain ⟨hIk, hRk⟩ := iterate_next_inv k s hInv (by omega)
    obtain ⟨s', hs', -, -⟩ := (next_line_step _ hIk).1 (by omega)
    exact ⟨s', hs'⟩
  · obtain ⟨hIk, hRk⟩ := iterate_next_inv (total_line_count s - 1) s hInv (by omega)
    exact (next_line_step _ hIk).2.1 (by omega)

theorem nav_reversibility_witness :
    prev_line { wNav with current_line := 1 } = some (wNav, NavResult.Ok) ∧
    next_line (iterate_next 1 wNav) =
      some (iterate_next 1 wNav, NavResult.PageBoundaryNext) := by
  have hInv : Inv wNav := by
    refine ⟨rfl, by simp [wNav, RailNav.new], by simp [wNav, RailNav.new], ?_, ?_⟩
    · intro i hi
      have hi0 : i = 0 := by
        simp only [wNav, RailNav.new, List.length_cons, List.length_nil] at hi
        omega
      subst hi0
      exact ⟨wBlock, rfl, by simp [wBlock]⟩
    · show (0 : ℕ) < 2
      omega
  have h := nav_reversibility_and_boundary wNav hInv
  have htlc : total_line_count wNav = 2 := rfl
  refine ⟨h.1 _ rfl, ?_⟩
  have h2 := (h.2 rfl rfl).2
  rw [htlc] at h2
  exact h2

/-! #### Claim C7 -/

/-- Well-formedness needed for panic-freedom: whenever the navigable set
is non-empty, the cursor's block position is in range and every
navigable position resolves (through a present analysis) to a block with
at least one line. -/
def WF (s : RailNav) : Prop :=
  s.navigable_indices ≠ [] →
    s.current_block < s.navigable_indices.length ∧
    ∀ i < s.navigable_indices.length, ∃ b, navBlockAt s i = some b ∧ b.lines ≠ []

/-- Cursor-line validity: whenever the navigable set is non-empty the
cursor's line index is in range of the current block's lines. -/
def CursorValid (s : RailNav) : Prop :=
  s.navigable_indices ≠ [] →
    ∃ b, current_navigable_block s = some b ∧ s.current_line < b.lines.length

theorem bind_some_isSome {α β : Type} (x : Option α) (g : α → β)
    (hx : x.isSome) : (x.bind (fun v => some (g v))).isSome := by
  obtain ⟨v, rfl⟩ := Option.isSome_iff_exists.1 hx
  rfl

theorem current_line_info_isSome (s : RailNav) (b : LayoutBlock)
    (hb : current_navigable_block s = some b) (hbne : b.lines ≠ []) :
    (current_line_info s).isSome := by
  rw [current_line_info, hb]
  have hlen : b.lines.length ≠ 0 := fun h => hbne (List.eq_nil_of_length_eq_zero h)
  have hidx : min s.current_line (b.lines.length - 1) < b.lines.length := by omega
  simp only [Option.bind_eq_bind, Option.some_bind, if_neg hlen,
    List.getElem?_eq_getElem hidx, Option.isSome_some]

/-- C7 (amended): on states satisfying the documented index invariant
(`WF`: in-range navigable indices with non-empty line vectors, in-range
cursor block), `next_line`, `prev_line`, `jump_to_end`,
`start_snap_to_current`, `tick` and `current_line_count` never panic and
the three cursor-moving operations preserve `WF` and cursor-line
validity; `current_navigable_block` and `current_line_info` additionally
require a non-empty navigable set (`start_scroll` and `stop_scroll` are
total by construction).  The original claim's unconditional totality is
refuted by `current_navigable_block_new_panics`. -/
theorem railnav_totality (s : RailNav) (hWF : WF s) (hCV : CursorValid s) :
    (next_line s).isSome ∧
    (prev_line s).isSome ∧
    (jump_to_end s).isSome ∧
    (∀ cx cy zoom ww wh now, (start_snap_to_current s cx cy zoom ww wh now).isSome) ∧
    (∀ cx cy dt zoom ww now, (tick s cx cy dt zoom ww now).isSome) ∧
    (current_line_count s).isSome ∧
    (s.navigable_indices ≠ [] →
      (current_navigable_block s).isSome ∧ (current_line_info s).isSome) ∧
    (∀ s₁ r, next_line s = some (s₁, r) → WF s₁ ∧ CursorValid s₁) ∧
    (∀ s₁ r, prev_line s = some (s₁, r) → WF s₁ ∧ CursorValid s₁) ∧
    (∀ s₁, jump_to_end s = some s₁ → WF s₁ ∧ CursorValid s₁) := by
  by_cases hne : s.navigable_indices = []
  · -- empty navigable set: every guarded operation is a no-op
    have hguard : s.active = false ∨ s.navigable_indices = [] := Or.inr hne
    have hnext : next_line s = some (s, NavResult.Ok) := by rw [next_line, if_pos hguard]
    have hprev : prev_line s = some (s, NavResult.Ok) := by rw [prev_line, if_pos hguard]
    have hjump : jump_to_end s = some s := by rw [jump_to_end, if_pos hne]
    refine ⟨by rw [hnext]; rfl, by rw [hprev]; rfl, by rw [hjump]; rfl,
      fun cx cy zoom ww wh now => ?_, fun cx cy dt zoom ww now => ?_, ?_,
      fun h => absurd hne h, ?_, ?_, ?_⟩
    · rw [start_snap_to_current, if_pos hguard]
      rfl
    · obtain ⟨an, nav, cb, cl, act, sn, sd, shs⟩ := s
      rw [tick]
      rcases sn with - | snap
      · rcases sd with - | dir
        · rcases shs with - | hold <;> rfl
        · rcases shs with - | hold
          · rfl
          · simp only [Option.bind_eq_bind]
            apply bind_some_isSome
            apply clamp_x_isSome
            intro hx
            exact absurd hne hx
      · by_cases ht : 1 ≤ min ((now - snap.start_time) * 1000 / snap.duration_ms) 1
        · simp only [if_pos ht]
          rcases sd with - | dir
          · rcases shs with - | hold <;> rfl
          · rcases shs with - | hold
            · rfl
            · simp only [Option.bind_eq_bind]
              apply bind_some_isSome
              apply clamp_x_isSome
              intro hx
              exact absurd hne hx
        · simp only [if_neg ht]
          rcases sd with - | dir
          · rcases shs with - | hold <;> rfl
          · rcases shs with - | hold
            · rfl
            · simp only [Option.bind_eq_bind]
              apply bind_some_isSome
              apply clamp_x_isSome
              intro hx
              exact absurd hne hx
    · rw [current_line_count, if_pos hne]
      rfl
    · intro s₁ r h
      rw [hnext] at h
      simp only [Option.some.injEq, Prod.mk.injEq] at h
      rw [← h.1]
      exact ⟨hWF, hCV⟩
    · intro s₁ r h
      rw [hprev] at h
      simp only [Option.some.injEq, Prod.mk.injEq] at h
      rw [← h.1]
      exact ⟨hWF, hCV⟩
    · intro s₁ h
      rw [hjump] at h
      simp only [Option.some.injEq] at h
      rw [← h]
      exact ⟨hWF, hCV⟩
  · -- non-empty navigable set
    obtain ⟨hcb, hall⟩ := hWF hne
    obtain ⟨b, hb, hbne⟩ := hall s.current_block hcb
    have hcnb : current_navigable_block s = some b := hb
    obtain ⟨bc, hbc, hbcl⟩ := hCV hne
    have hbcb : bc = b := by
      have := hbc.symm.trans hcnb
      exact (Option.some.injEq _ _ ▸ this)
    subst hbcb
    have hcli : (current_line_info s).isSome := current_line_info_isSome s bc hcnb hbne
    have hnextSome : (next_line s).isSome := by
      rw [next_line]
      by_cases hg : s.active = false ∨ s.navigable_indices = []
      · rw [if_pos hg]; rfl
      · rw [if_neg hg, hcnb]
        simp only [Option.bind_eq_bind, Option.some_bind]
        split
        · rfl
        · split <;> rfl
    have hprevSome : (prev_line s).isSome := by
      by_cases hg : s.active = false ∨ s.navigable_indices = []
      · rw [prev_line, if_pos hg]; rfl
      · rw [prev_line_eq s hg]
        split
        · rfl
        · split
          · obtain ⟨b2, hb2, -⟩ := hall (s.current_block - 1) (by omega)
            have hcb2 : current_navigable_block
                { s with current_block := s.current_block - 1 } = some b2 := hb2
            rw [hcb2, Option.some_bind]
            rfl
          · rfl
    have hjumpSome : (jump_to_end s).isSome := by
      rw [jump_to_end, if_neg hne]
      obtain ⟨b3, hb3, -⟩ := hall (s.navigable_indices.length - 1)
        (by have := List.length_pos.2 hne; omega)
      have hcb3 : current_navigable_block
          { s with current_block := s.navigable_indices.length - 1 } = some b3 := hb3
      rw [hcb3]
      rfl
    refine ⟨hnextSome, hprevSome, hjumpSome,
      fun cx cy zoom ww wh now => ?_, fun cx cy dt zoom ww now => ?_, ?_,
      fun _ => ⟨by rw [hcnb]; rfl, hcli⟩, ?_, ?_, ?_⟩
    · -- start_snap_to_current
      rw [start_snap_to_current]
      by_cases hg : s.active = false ∨ s.navigable_indices = []
      · rw [if_pos hg]; rfl
      · rw [if_neg hg, compute_target_camera, hcnb]
        obtain ⟨li, hli⟩ := Option.isSome_iff_exists.1 hcli
        simp only [Option.bind_eq_bind, Option.some_bind, hli]
        rfl
    · -- tick
      obtain ⟨an, nav, cb, cl, act, sn, sd, shs⟩ := s
      rw [tick]
      rcases sn with - | snap
      · rcases sd with - | dir
        · rcases shs with - | hold <;> rfl
        · rcases shs with - | hold
          · rfl
          · simp only [Option.bind_eq_bind]
            apply bind_some_isSome
            apply clamp_x_isSome
            intro hx
            exact Option.isSome_iff_exists.2 ⟨bc, hcnb⟩
      · by_cases ht : 1 ≤ min ((now - snap.start_time) * 1000 / snap.duration_ms) 1
        · simp only [if_pos ht]
          rcases sd with - | dir
          · rcases shs with - | hold <;> rfl
          · rcases shs with - | hold
            · rfl
            · simp only [Option.bind_eq_bind]
              apply bind_some_isSome
              apply clamp_x_isSome
              intro hx
              exact Option.isSome_iff_exists.2 ⟨bc, hcnb⟩
        · simp only [if_neg ht]
          rcases sd with - | dir
          · rcases shs with - | hold <;> rfl
          · rcases shs with - | hold
            · rfl
            · simp only [Option.bind_eq_bind]
              apply bind_some_isSome
              apply clamp_x_isSome
              intro hx
              exact Option.isSome_iff_exists.2 ⟨bc, hcnb⟩
    · rw [current_line_count, if_neg hne, hcnb]
      rfl
    · -- next_line preserves WF and CursorValid
      intro s₁ r h
      by_cases hg : s.active = false ∨ s.navigable_indices = []
      · rw [next_line, if_pos hg] at h
        simp only [Option.some.injEq, Prod.mk.injEq] at h
        rw [← h.1]
        exact ⟨hWF, hCV⟩
      · rw [next_line_eq s bc hg hcnb] at h
        by_cases hc1 : s.current_line + 1 < bc.lines.length
        · rw [if_pos hc1] at h
          simp only [Option.some.injEq, Prod.mk.injEq] at h
          rw [← h.1]
          exact ⟨fun _ => ⟨hcb, hall⟩, fun _ => ⟨bc, hcnb, hc1⟩⟩
        · by_cases hc2 : s.current_block + 1 < s.navigable_indices.length
          · rw [if_neg hc1, if_pos hc2] at h
            simp only [Option.some.injEq, Prod.mk.injEq] at h
            rw [← h.1]
            obtain ⟨b2, hb2, hb2ne⟩ := hall (s.current_block + 1) hc2
            refine ⟨fun _ => ⟨hc2, hall⟩, fun _ => ⟨b2, hb2, ?_⟩⟩
            show 0 < b2.lines.length
            exact List.length_pos.2 hb2ne
          · rw [if_neg hc1, if_neg hc2] at h
            simp only [Option.some.injEq, Prod.mk.injEq] at h
            rw [← h.1]
            exact ⟨hWF, hCV⟩
    · -- prev_line preserves WF and CursorValid
      intro s₁ r h
      by_cases hg : s.active = false ∨ s.navigable_indices = []
      · rw [prev_line, if_pos hg] at h
        simp only [Option.some.injEq, Prod.mk.injEq] at h
        rw [← h.1]
        exact ⟨hWF, hCV⟩
      · rw [prev_line_eq s hg] at h
        by_cases hc1 : 0 < s.current_line
        · rw [if_pos hc1] at h
          simp only [Option.some.injEq, Prod.mk.injEq] at h
          rw [← h.1]
          refine ⟨fun _ => ⟨hcb, hall⟩, fun _ => ⟨bc, hcnb, ?_⟩⟩
          show s.current_line - 1 < bc.lines.length
          omega
        · by_cases hc2 : 0 < s.current_block
          · rw [if_neg hc1, if_pos hc2] at h
            obtain ⟨b2, hb2, hb2ne⟩ := hall (s.current_block - 1) (by omega)
            have hcb2 : current_navigable_block
                { s with current_block := s.current_block - 1 } = some b2 := hb2
            rw [hcb2, Option.some_bind] at h
            simp only [Option.some.injEq, Prod.mk.injEq] at h
            rw [← h.1]
            refine ⟨fun _ => ⟨?_, hall⟩, fun _ => ⟨b2, hb2, ?_⟩⟩
            · show s.current_block - 1 < s.navigable_indices.length
              omega
            · show b2.lines.length - 1 < b2.lines.length
              have := List.length_pos.2 hb2ne
              omega
          · rw [if_neg hc1, if_neg hc2] at h
            simp only [Option.some.injEq, Prod.mk.injEq] at h
            rw [← h.1]
            exact ⟨hWF, hCV⟩
    · -- jump_to_end preserves WF and CursorValid
      intro s₁ h
      rw [jump_to_end, if_neg hne] at h
      obtain ⟨b3, hb3, hb3ne⟩ := hall (s.navigable_indices.length - 1)
        (by have := List.length_pos.2 hne; omega)
      have hcb3 : current_navigable_block
          { s with current_block := s.navigable_indices.length - 1 } = some b3 := hb3
      rw [hcb3] at h
      simp only [Option.bind_eq_bind, Option.some_bind, Option.some.injEq] at h
      rw [← h]
      refine ⟨fun _ => ⟨?_, hall⟩, fun _ => ⟨b3, hb3, ?_⟩⟩
      · show s.navigable_indices.length - 1 < s.navigable_indices.length
        have := List.length_pos.2 hne
        omega
      · show b3.lines.length - 1 < b3.lines.length
        have := List.length_pos.2 hb3ne
        omega

/-- C7 counterexample: on the freshly-constructed navigator (empty
navigable set, no analysis — a state the claim explicitly includes),
`current_navigable_block` panics: the source unwraps the absent analysis
(`self.analysis.as_ref().unwrap()`, rail.rs:332). -/
theorem current_navigable_block_new_panics :
    current_navigable_block RailNav.new = none := rfl

theorem railnav_totality_witness :
    (next_line wNav).isSome ∧ (prev_line wNav).isSome ∧ (jump_to_end wNav).isSome ∧
    (tick wNav 0 0 (1/60) 3 800 0).isSome ∧
    (current_navigable_block wNav).isSome ∧ (current_line_info wNav).isSome := by
  have hWF : WF wNav := by
    intro _
    refine ⟨by simp [wNav, RailNav.new], fun i hi => ?_⟩
    have hi0 : i = 0 := by
      simp only [wNav, RailNav.new, List.length_cons, List.length_nil] at hi
      omega
    subst hi0
    exact ⟨wBlock, rfl, by simp [wBlock]⟩
  have hCV : CursorValid wNav := by
    intro _
    refine ⟨wBlock, rfl, ?_⟩
    show (0 : ℕ) < 2
    omega
  have h := railnav_totality wNav hWF hCV
  have hacc := h.2.2.2.2.2.2.1 (by simp [wNav, RailNav.new])
  exact ⟨h.1, h.2.1, h.2.2.1, h.2.2.2.2.1 0 0 (1/60) 3 800 0, hacc.1, hacc.2⟩

/-! ### Reading order (`assign_reading_order`, layout.rs:371-445)

The source builds a union-find over all pairs of blocks (union when left
edges are within `0.15 * page_width` or horizontal overlap exceeds 30%
of the narrower box), groups indices by root in a `HashMap`, sorts the
column list ascending by minimum member x, sorts each column ascending
by y, and numbers the blocks sequentially in that nested order.  The
`HashMap` iteration order is arbitrary, but the groups are re-sorted by
minimum x before use; this model fixes first-occurrence order for the
grouping, with members in increasing index order exactly as the
source's `for i in 0..n` push loop produces them. -/

/-- Fuelled union-find `find` without path compression.  The source's
`find` (layout.rs:386-391) compresses paths, which changes only the
parent array's internal shape, never the root returned; with fuel
`parent.length` the chain always reaches its root. -/
def ufFind (parent : List ℕ) : ℕ → ℕ → ℕ
  | 0, i => i
  | fuel + 1, i =>
    let p := parent.getD i i
    if p = i then i else ufFind parent fuel p

/-- `union` (layout.rs:392-398). -/
def ufUnion (parent : List ℕ) (a b : ℕ) : List ℕ :=
  let ra := ufFind parent parent.length a
  let rb := ufFind parent parent.length b
  if ra ≠ rb then parent.set ra rb else parent

/-- The same-column test of the pair loop (layout.rs:400-419). -/
def sameColumnPair (blocks : List LayoutBlock) (column_threshold : ℚ) (i j : ℕ) : Bool :=
  let a := (blocks.getD i default).bbox
  let b := (blocks.getD j default).bbox
  let left_close := |a.x - b.x| < column_threshold
  let overlap_start := max a.x b.x
  let overlap_end := min (a.x + a.w) (b.x + b.w)
  let overlap := max (overlap_end - overlap_start) 0
  let min_width := min a.w b.w
  let has_overlap := 0 < min_width ∧ (3/10 : ℚ) < overlap / min_width
  decide (left_close ∨ has_overlap)

/-- The double union loop over all pairs `i < j` (layout.rs:400-419). -/
def ufParent (blocks : List LayoutBlock) (column_threshold : ℚ) : List ℕ :=
  (List.range blocks.length).foldl
    (fun par i =>
      (List.range' (i + 1) (blocks.length - (i + 1))).foldl
        (fun par j =>
          if sameColumnPair blocks column_threshold i j then ufUnion par i j else par)
        par)
    (List.range blocks.length)

/-- Root of block `i` in the final union-find forest: the §4.3(b) rule
closed under union-find transitivity places `i` and `j` in the same
column exactly when their roots agree. -/
def columnRoot (blocks : List LayoutBlock) (column_threshold : ℚ) (i : ℕ) : ℕ :=
  ufFind (ufParent blocks column_threshold) (ufParent blocks column_threshold).length i

/-- First-occurrence deduplication of a key list. -/
def distinctKeys : List ℕ → List ℕ
  | [] => []
  | k :: ks => k :: distinctKeys (ks.filter (fun x => x ≠ k))
termination_by l => l.length
decreasing_by
  simp only [List.length_cons]
  exact Nat.lt_succ_of_le (List.length_filter_le _ _)

/-- The columns: for each distinct root, the member indices in
increasing index order (layout.rs:421-428). -/
def columnsOf (blocks : List LayoutBlock) (column_threshold : ℚ) : List (List ℕ) :=
  (distinctKeys ((List.range blocks.length).map (columnRoot blocks column_threshold))).map
    (fun r => (List.range blocks.length).filter
      (fun i => columnRoot blocks column_threshold i = r))

/-- Minimum x over a column's members (layout.rs:431-435; the source
folds `f32::min` from `f32::MAX`, which on a non-empty column — the only
kind produced — equals the member minimum). -/
def colMinX (blocks : List LayoutBlock) : List ℕ → ℚ
  | [] => 0
  | i :: rest =>
    (rest.map (fun j => (blocks.getD j default).bbox.x)).foldl min
      ((blocks.getD i default).bbox.x)

/-- Block indices in reading order: columns sorted ascending by minimum
x, members sorted ascending by y (both stable sorts, like the source's
`sort_by`), concatenated (layout.rs:430-444). -/
def readingOrderList (blocks : List LayoutBlock) (column_threshold : ℚ) : List ℕ :=
  ((List.mergeSort (columnsOf blocks column_threshold)
      (fun ca cb => decide (colMinX blocks ca ≤ colMinX blocks cb))).map
    (fun col => List.mergeSort col
      (fun i j => decide ((blocks.getD i default).bbox.y ≤
        (blocks.getD j default).bbox.y)))).flatten

/-- `assign_reading_order` (layout.rs:371-445): empty input returns
immediately; otherwise block `i` receives as `order` its position in the
reading-order list (the source's sequential counter over the nested
column iteration). -/
def assign_reading_order (blocks : List LayoutBlock) (page_width : ℚ) : List LayoutBlock :=
  if blocks.isEmpty then blocks
  else
    blocks.enum.map (fun p =>
      { p.2 with order := (readingOrderList blocks (page_width * (15/100))).indexOf p.1 })

/-! #### Reading-order lemmas -/

theorem distinctKeys_mem (x : ℕ) : ∀ l : List ℕ, x ∈ distinctKeys l ↔ x ∈ l := by
  intro l
  induction l using distinctKeys.induct with
  | case1 => simp [distinctKeys]
  | case2 k ks ih =>
      rw [distinctKeys]
      constructor
      · intro h
        rcases List.mem_cons.1 h with rfl | h
        · exact List.mem_cons_self _ _
        · have := ih.1 h
          exact List.mem_cons_of_mem _ (List.mem_of_mem_filter this)
      · intro h
        rcases List.mem_cons.1 h with rfl | h
        · exact List.mem_cons_self _ _
        · by_cases hxk : x = k
          · exact hxk ▸ List.mem_cons_self _ _
          · exact List.mem_cons_of_mem _
              (ih.2 (List.mem_filter.2 ⟨h, by simpa using hxk⟩))

theorem distinctKeys_nodup : ∀ l : List ℕ, (distinctKeys l).Nodup := by
  intro l
  induction l using distinctKeys.induct with
  | case1 => simp [distinctKeys]
  | case2 k ks ih =>
      rw [distinctKeys]
      refine List.nodup_cons.2 ⟨fun hk => ?_, ih⟩
      have := (distinctKeys_mem k _).1 hk
      have := List.of_mem_filter this
      simp at this

/-- Grouping a list by key (first-occurrence key order, groups filtered
from the whole list) and concatenating yields a permutation of the list. -/
theorem groups_flatten_perm (f : ℕ → ℕ) :
    ∀ n, ∀ l : List ℕ, l.length ≤ n →
      ((distinctKeys (l.map f)).map (fun k => l.filter (fun i => f i = k))).flatten.Perm l := by
  intro n
  induction n with
  | zero =>
      intro l hl
      have : l = [] := List.eq_nil_of_length_eq_zero (by omega)
      subst this
      simp [distinctKeys]
  | succ n ih =>
      intro l hl
      match l with
      | [] => simp [distinctKeys]
      | i :: is =>
          have hmapfil : (is.map f).filter (fun x => x ≠ f i) =
              (is.filter (fun j => f j ≠ f i)).map f := by
            rw [List.filter_map]
            rfl
          rw [List.map_cons, distinctKeys, hmapfil, List.map_cons, List.flatten_cons]
          have hhead : (i :: is).filter (fun j => f j = f i) =
              i :: is.filter (fun j => f j = f i) := by
            rw [List.filter_cons_of_pos (by simp)]
          rw [hhead]
          have hgroups : ∀ k ∈ distinctKeys ((is.filter (fun j => f j ≠ f i)).map f),
              (i :: is).filter (fun j => f j = k) =
              (is.filter (fun j => f j ≠ f i)).filter (fun j => f j = k) := by
            intro k hk
            have hk' : k ∈ (is.filter (fun j => f j ≠ f i)).map f :=
              (distinctKeys_mem k _).1 hk
            obtain ⟨j, hj, rfl⟩ := List.mem_map.1 hk'
            have hjne : f j ≠ f i := by
              have := List.of_mem_filter hj
              simpa using this
            rw [List.filter_cons_of_neg (by simpa using fun h => hjne h.symm)]
            rw [List.filter_filter]
            refine (List.filter_congr fun x hx => ?_).symm
            by_cases hfx : f x = f j
            · have hxi : f x ≠ f i := by rw [hfx]; exact hjne
              simp [hfx, hxi, hjne]
            · simp [hfx]
          have hmapeq :
              (distinctKeys ((is.filter (fun j => f j ≠ f i)).map f)).map
                (fun k => (i :: is).filter (fun j => f j = k)) =
              (distinctKeys ((is.filter (fun j => f j ≠ f i)).map f)).map
                (fun k => (is.filter (fun j => f j ≠ f i)).filter (fun j => f j = k)) :=
            List.map_congr_left hgroups
          rw [hmapeq]
          have hlen : (is.filter (fun j => f j ≠ f i)).length ≤ n := by
            have h1 := List.length_filter_le (fun j => decide (f j ≠ f i)) is
            have h2 : is.length ≤ n := by
              have := hl
              simp only [List.length_cons] at this
              omega
            exact le_trans h1 h2
          have hrest := ih (is.filter (fun j => f j ≠ f i)) hlen
          refine List.Perm.trans
            (List.Perm.append_left (i :: is.filter (fun j => f j = f i)) hrest) ?_
          show (i :: (is.filter (fun j => f j = f i) ++
            is.filter (fun j => f j ≠ f i))).Perm (i :: is)
          refine List.Perm.cons i ?_
          have hfap := List.filter_append_perm (fun j => decide (f j = f i)) is
          refine List.Perm.trans ?_ hfap
          refine List.Perm.append_left _ ?_
          have hcongr : is.filter (fun j => f j ≠ f i) =
              is.filter (fun x => !decide (f x = f i)) := by
            refine List.filter_congr fun x hx => ?_
            by_cases h : f x = f i <;> simp [h]
          rw [hcongr]

theorem columnsOf_flatten_perm (blocks : List LayoutBlock) (ct : ℚ) :
    (columnsOf blocks ct).flatten.Perm (List.range blocks.length) := by
  have h := groups_flatten_perm (columnRoot blocks ct) (List.range blocks.length).length
    (List.range blocks.length) le_rfl
  rw [columnsOf]
  exact h

theorem readingOrderList_perm (blocks : List LayoutBlock) (ct : ℚ) :
    (readingOrderList blocks ct).Perm (List.range blocks.length) := by
  rw [readingOrderList]
  have h1 : (List.mergeSort (columnsOf blocks ct)
      (fun ca cb => decide (colMinX blocks ca ≤ colMinX blocks cb))).Perm
      (columnsOf blocks ct) := List.mergeSort_perm _ _
  have h2 := (h1.map (fun col => List.mergeSort col
    (fun i j => decide ((blocks.getD i default).bbox.y ≤
      (blocks.getD j default).bbox.y)))).flatten
  have h4 : List.Forall₂ (fun a b => a.Perm b)
      ((columnsOf blocks ct).map (fun col => List.mergeSort col
        (fun i j => decide ((blocks.getD i default).bbox.y ≤
          (blocks.getD j default).bbox.y))))
      (columnsOf blocks ct) :=
    List.forall₂_map_left_iff.2 (List.forall₂_same.2 (fun c _ => List.mergeSort_perm c _))
  exact (h2.trans (List.Perm.flatten_congr h4)).trans (columnsOf_flatten_perm blocks ct)

theorem readingOrderList_nodup (blocks : List LayoutBlock) (ct : ℚ) :
    (readingOrderList blocks ct).Nodup :=
  (readingOrderList_perm blocks ct).symm.nodup (List.nodup_range _)

/-- Inside the reading-order list, a block strictly above another block
of the same column (same union-find root) comes strictly earlier. -/
theorem readingOrderList_ordered (blocks : List LayoutBlock) (ct : ℚ)
    (i j : ℕ) (hi : i < blocks.length) (hj : j < blocks.length)
    (hroot : columnRoot blocks ct i = columnRoot blocks ct j)
    (hy : (blocks.getD i default).bbox.y < (blocks.getD j default).bbox.y) :
    (readingOrderList blocks ct).indexOf i < (readingOrderList blocks ct).indexOf j := by
  set c := (List.range blocks.length).filter
    (fun k => columnRoot blocks ct k = columnRoot blocks ct i) with hc
  have hcmem : c ∈ columnsOf blocks ct := by
    rw [columnsOf]
    exact List.mem_map.2 ⟨columnRoot blocks ct i,
      (distinctKeys_mem _ _).2 (List.mem_map.2 ⟨i, List.mem_range.2 hi, rfl⟩), rfl⟩
  have hcmem2 : c ∈ List.mergeSort (columnsOf blocks ct)
      (fun ca cb => decide (colMinX blocks ca ≤ colMinX blocks cb)) :=
    ((List.mergeSort_perm _ _).mem_iff).2 hcmem
  have hcmem3 : List.mergeSort c (fun a b => decide ((blocks.getD a default).bbox.y ≤
        (blocks.getD b default).bbox.y)) ∈
      (List.mergeSort (columnsOf blocks ct)
        (fun ca cb => decide (colMinX blocks ca ≤ colMinX blocks cb))).map
        (fun col => List.mergeSort col (fun a b => decide ((blocks.getD a default).bbox.y ≤
          (blocks.getD b default).bbox.y))) :=
    List.mem_map_of_mem _ hcmem2
  obtain ⟨A, B, hAB⟩ := List.append_of_mem hcmem3
  set csorted := List.mergeSort c (fun a b => decide ((blocks.getD a default).bbox.y ≤
    (blocks.getD b default).bbox.y)) with hcs
  have hordEq : readingOrderList blocks ct = A.flatten ++ (csorted ++ B.flatten) := by
    rw [readingOrderList, hAB, List.flatten_append, List.flatten_cons]
  have hic : i ∈ csorted :=
    ((List.mergeSort_perm c _).mem_iff).2
      (List.mem_filter.2 ⟨List.mem_range.2 hi, by simp⟩)
  have hjc : j ∈ csorted :=
    ((List.mergeSort_perm c _).mem_iff).2
      (List.mem_filter.2 ⟨List.mem_range.2 hj, by simp [hroot]⟩)
  have hnd : (readingOrderList blocks ct).Nodup := readingOrderList_nodup blocks ct
  have hsorted : csorted.Pairwise (fun a b => (blocks.getD a default).bbox.y ≤
      (blocks.getD b default).bbox.y) := by
    have h := @List.sorted_mergeSort ℕ
        (fun a b => decide ((blocks.getD a default).bbox.y ≤ (blocks.getD b default).bbox.y))
        (fun a b cc => by
          simp only [decide_eq_true_eq]
          exact fun h1 h2 => le_trans h1 h2)
        (fun a b => by
          simp only [Bool.or_eq_true, decide_eq_true_eq]
          exact le_total _ _)
        c
    exact h.imp (by simp)
  have hli : csorted.indexOf i < csorted.length := List.indexOf_lt_length.2 hic
  have hlj : csorted.indexOf j < csorted.length := List.indexOf_lt_length.2 hjc
  have hgi := List.getElem_indexOf hli
  have hgj := List.getElem_indexOf hlj
  have hlij : csorted.indexOf i < csorted.indexOf j := by
    rcases lt_trichotomy (csorted.indexOf i) (csorted.indexOf j) with h | h | h
    · exact h
    · exfalso
      have hgetij : csorted.get ⟨csorted.indexOf i, hli⟩ = csorted.get ⟨csorted.indexOf j, hlj⟩ :=
        congrArg csorted.get (Fin.ext h)
      have hij : i = j := by
        rw [List.get_eq_getElem, List.get_eq_getElem] at hgetij
        rw [← hgi, ← hgj]
        exact hgetij
      rw [hij] at hy
      exact lt_irrefl _ hy
    · exfalso
      have hle := (List.pairwise_iff_getElem.1 hsorted) _ _ hlj hli h
      rw [hgi, hgj] at hle
      exact absurd hy (not_lt.2 hle)
  have hiA : i ∉ A.flatten := by
    rw [hordEq] at hnd
    have hdisj := (List.nodup_append.1 hnd).2.2
    intro hmem
    exact (List.disjoint_left.1 hdisj) hmem (List.mem_append_left _ hic)
  have hjA : j ∉ A.flatten := by
    rw [hordEq] at hnd
    have hdisj := (List.nodup_append.1 hnd).2.2
    intro hmem
    exact (List.disjoint_left.1 hdisj) hmem (List.mem_append_left _ hjc)
  rw [hordEq, List.indexOf_append_of_not_mem hiA, List.indexOf_append_of_not_mem hjA,
    List.indexOf_append_of_mem hic, List.indexOf_append_of_mem hjc]
  omega

theorem assign_reading_order_map_order (blocks : List LayoutBlock) (pw : ℚ)
    (hne : blocks ≠ []) :
    (assign_reading_order blocks pw).map (fun b => b.order) =
    (List.range blocks.length).map
      (fun i => (readingOrderList blocks (pw * (15/100))).indexOf i) := by
  rw [assign_reading_order, if_neg (by simpa using hne)]
  rw [List.map_map, ← List.enum_map_fst blocks, List.map_map]
  rfl

theorem assign_reading_order_getElem (blocks : List LayoutBlock) (pw : ℚ)
    (hne : blocks ≠ []) (i : ℕ) (hi : i < blocks.length) :
    (assign_reading_order blocks pw)[i]? =
      some { blocks.get ⟨i, hi⟩ with
        order := (readingOrderList blocks (pw * (15/100))).indexOf i } := by
  rw [assign_reading_order, if_neg (by simpa using hne)]
  rw [List.getElem?_map, List.getElem?_enum, List.getElem?_eq_getElem hi]
  rfl

/-- C2: on any non-empty block list the assigned `order` values are a
permutation of `0..n-1`; two blocks placed in the same column by the
§4.3(b) union rule (equal union-find roots) are ordered by increasing y;
and the empty input is returned unchanged. -/
theorem reading_order_totality (blocks : List LayoutBlock) (page_width : ℚ)
    (hne : blocks ≠ []) :
    ((assign_reading_order blocks page_width).map (fun b => b.order)).Perm
      (List.range blocks.length) ∧
    (∀ i j, i < blocks.length → j < blocks.length →
      columnRoot blocks (page_width * (15/100)) i =
        columnRoot blocks (page_width * (15/100)) j →
      (blocks.getD i default).bbox.y < (blocks.getD j default).bbox.y →
      ∃ bi bj, (assign_reading_order blocks page_width)[i]? = some bi ∧
        (assign_reading_order blocks page_width)[j]? = some bj ∧
        bi.order < bj.order) ∧
    assign_reading_order [] page_width = [] := by
  set ord := readingOrderList blocks (page_width * (15/100)) with hordDef
  have hperm : ord.Perm (List.range blocks.length) := readingOrderList_perm blocks _
  refine ⟨?_, ?_, rfl⟩
  · rw [assign_reading_order_map_order blocks page_width hne]
    have hinj : ∀ x ∈ List.range blocks.length, ∀ y ∈ List.range blocks.length,
        ord.indexOf x = ord.indexOf y → x = y := by
      intro x hx y hy hxy
      have hxm : x ∈ ord := hperm.mem_iff.2 hx
      have hym : y ∈ ord := hperm.mem_iff.2 hy
      have hxl := List.indexOf_lt_length.2 hxm
      have hyl := List.indexOf_lt_length.2 hym
      have h3 : ord.get ⟨ord.indexOf x, hxl⟩ = ord.get ⟨ord.indexOf y, hyl⟩ :=
        congrArg ord.get (Fin.ext hxy)
      have h4 := List.getElem_indexOf hxl
      have h5 := List.getElem_indexOf hyl
      rw [List.get_eq_getElem, List.get_eq_getElem] at h3
      rw [← h4, ← h5]
      exact h3
    have hndm : ((List.range blocks.length).map (fun i => ord.indexOf i)).Nodup :=
      List.Nodup.map_on hinj (List.nodup_range _)
    have hsub : (List.range blocks.length).map (fun i => ord.indexOf i) ⊆
        List.range blocks.length := by
      intro x hx
      obtain ⟨i, hi, rfl⟩ := List.mem_map.1 hx
      have hmem : i ∈ ord := hperm.mem_iff.2 hi
      have hlt := List.indexOf_lt_length.2 hmem
      have hlen : ord.length = blocks.length := by
        rw [hperm.length_eq, List.length_range]
      exact List.mem_range.2 (by omega)
    refine (List.Nodup.subperm hndm hsub).perm_of_length_le ?_
    rw [List.length_map, List.length_range]
  · intro i j hi hj hroot hy
    refine ⟨_, _, assign_reading_order_getElem blocks page_width hne i hi,
      assign_reading_order_getElem blocks page_width hne j hj, ?_⟩
    exact readingOrderList_ordered blocks _ i j hi hj hroot hy

/-- Scenario B of the spec: a full-width paragraph and a narrow block
higher up that overlaps its right end. -/
def wBlockA : LayoutBlock :=
  { bbox := ⟨0, 100, 600, 50⟩, class_id := 2, confidence := 1, order := 0, lines := [] }

def wBlockB : LayoutBlock :=
  { bbox := ⟨500, 50, 100, 20⟩, class_id := 2, confidence := 1, order := 0, lines := [] }

theorem reading_order_totality_witness :
    ((assign_reading_order [wBlockA, wBlockB] 800).map (fun b => b.order)).Perm
      (List.range 2) ∧
    ∃ bi bj, (assign_reading_order [wBlockA, wBlockB] 800)[1]? = some bi ∧
      (assign_reading_order [wBlockA, wBlockB] 800)[0]? = some bj ∧
      bi.order < bj.order := by
  have hroot : columnRoot [wBlockA, wBlockB] (800 * (15/100)) 1 =
      columnRoot [wBlockA, wBlockB] (800 * (15/100)) 0 := by
    norm_num [columnRoot, ufParent, ufUnion, ufFind, sameColumnPair,
      wBlockA, wBlockB, List.range_succ, List.range'_succ]
  have h := reading_order_totality [wBlockA, wBlockB] 800 (by simp)
  refine ⟨h.1, h.2.1 1 0 (by norm_num) (by norm_num) hroot ?_⟩
  norm_num [wBlockA, wBlockB]

/-! ### Line segmentation (`detect_lines_for_blocks`, layout.rs:447-563) -/

/-- Rust `f32::round` (round half away from zero) on `ℚ`. -/
def rustRound (q : ℚ) : ℤ :=
  if 0 ≤ q then ⌊q + 1/2⌋ else -⌊-q + 1/2⌋

/-- Rust saturating `as usize` cast of an integer. -/
def toUsize (z : ℤ) : ℕ := z.toNat

/-- Whether the pixel at image coordinates `(x, y)` counts as dark: the
byte triple is in bounds (the source checks `pixel_idx + 2 <
rgb_bytes.len()`) and the luminance `0.299 R + 0.587 G + 0.114 B` is
below 160 (layout.rs:485-495). -/
def pixelCounted (rgb : List ℕ) (imgW x y : ℕ) : Bool :=
  let pixel_idx := (y * imgW + x) * 3
  if pixel_idx + 2 < rgb.length then
    decide ((rgb.getD pixel_idx 0 : ℚ) * (299/1000) +
      (rgb.getD (pixel_idx + 1) 0 : ℚ) * (587/1000) +
      (rgb.getD (pixel_idx + 2) 0 : ℚ) * (114/1000) < 160)
  else false

/-- Number of dark pixels in row `row` of the region (layout.rs:483-497). -/
def darkCount (rgb : List ℕ) (imgW pxX pxY pxW row : ℕ) : ℕ :=
  ((List.range pxW).filter (fun col => pixelCounted rgb imgW (pxX + col) (pxY + row))).length

/-- One step of the run-detection scan (layout.rs:523-540). -/
def runStep (pred : ℕ → Bool) (st : Option ℕ × List (ℕ × ℕ)) (r : ℕ) :
    Option ℕ × List (ℕ × ℕ) :=
  if pred r then
    match st.1 with
    | none => (some r, st.2)
    | some _ => st
  else
    match st.1 with
    | some start => (none, if 3 ≤ r - start then st.2 ++ [(start, r - start)] else st.2)
    | none => st

/-- Maximal runs of rows satisfying `pred` that are at least 3 rows
tall, as `(start, height)` pairs, including a run that extends to the
bottom of the region (layout.rs:519-551). -/
def detectRuns (pred : ℕ → Bool) (pxH : ℕ) : List (ℕ × ℕ) :=
  let st := (List.range pxH).foldl (runStep pred) (none, [])
  match st.1 with
  | some start => if 3 ≤ pxH - start then st.2 ++ [(start, pxH - start)] else st.2
  | none => st.2

/-- Row-density profile of the pixel region (layout.rs:480-498). -/
def profileOf (rgb : List ℕ) (imgW pxX pxY pxW pxH : ℕ) : List ℚ :=
  (List.range pxH).map (fun row => (darkCount rgb imgW pxX pxY pxW row : ℚ) / pxW)

/-- Radius-1 moving average of the profile (layout.rs:500-508); row `r`
averages `profile[r-1 .. min (r+2) pxH)` with saturating bounds. -/
def smoothedOf (rgb : List ℕ) (imgW pxX pxY pxW pxH : ℕ) : List ℚ :=
  (List.range pxH).map (fun r =>
    (((profileOf rgb imgW pxX pxY pxW pxH).drop (r - 1)).take
        (min (r + 2) pxH - (r - 1))).sum /
      ((min (r + 2) pxH - (r - 1) : ℕ) : ℚ))

/-- The adaptive threshold: 15% of the mean over-0.005 density, floored
at 0.005 (layout.rs:510-517). -/
def thresholdOf (rgb : List ℕ) (imgW pxX pxY pxW pxH : ℕ) : ℚ :=
  let non_zero := (smoothedOf rgb imgW pxX pxY pxW pxH).filter
    (fun v => decide ((1 : ℚ)/200 < v))
  if non_zero.isEmpty then (1 : ℚ)/200
  else max ((non_zero.sum / non_zero.length) * (15/100)) (1/200)

/-- The retained runs of the region (layout.rs:519-551). -/
def regionRuns (rgb : List ℕ) (imgW pxX pxY pxW pxH : ℕ) : List (ℕ × ℕ) :=
  detectRuns (fun r => decide (thresholdOf rgb imgW pxX pxY pxW pxH <
    (smoothedOf rgb imgW pxX pxY pxW pxH).getD r 0)) pxH

/-- The per-block body of `detect_lines_for_blocks` (layout.rs:455-562),
returning the block's new `lines`.  The source pushes `LineInfo`s as the
scan closes each run; collecting the `(start, height)` runs first and
mapping them to `LineInfo` afterwards yields the same list in the same
order.  In the zero-size-region branch the source pushes onto the
existing (at this point empty) `lines` vector. -/
def detect_lines_for_block (b : LayoutBlock) (rgb : List ℕ) (imgW imgH : ℕ)
    (sx sy : ℚ) : List LineInfo :=
  let px_x := min (toUsize (rustRound (b.bbox.x / sx))) (imgW - 1)
  let px_y := min (toUsize (rustRound (b.bbox.y / sy))) (imgH - 1)
  let px_w := min (toUsize (rustRound (b.bbox.w / sx))) (imgW - px_x)
  let px_h := min (toUsize (rustRound (b.bbox.h / sy))) (imgH - px_y)
  if px_w = 0 ∨ px_h = 0 then
    b.lines ++ [{ y := b.bbox.y + b.bbox.h / 2, height := b.bbox.h }]
  else
    let lines := (regionRuns rgb imgW px_x px_y px_w px_h).map (fun run =>
      ({ y := b.bbox.y + ((run.1 : ℚ) + (run.2 : ℚ) / 2) * sy,
         height := (run.2 : ℚ) * sy } : LineInfo))
    if lines.isEmpty then [{ y := b.bbox.y + b.bbox.h / 2, height := b.bbox.h }]
    else lines

/-- `detect_lines_for_blocks` (layout.rs:447-563): recompute the `lines`
of every navigable block from the pixel buffer; leave other blocks
untouched. -/
def detect_lines_for_blocks (blocks : List LayoutBlock) (rgb : List ℕ) (imgW imgH : ℕ)
    (sx sy : ℚ) : List LayoutBlock :=
  blocks.map (fun b =>
    if is_navigable b.class_id then
      { b with lines := detect_lines_for_block b rgb imgW imgH sx sy }
    else b)

/-! #### Claim C3

The verification of run-to-run determinism.  `nms` and
`detect_lines_for_blocks` read nothing beyond their declared inputs, so
their embeddings above are plain functions and their determinism is by
construction.  `assign_reading_order` is not: the source iterates the
grouping `HashMap` in ambient (salted) hash order, layout.rs:422-428.
The development below verifies the union-find pair loop
(`UFInv`/`ufParent_spec`), shows two distinct columns always have
distinct minimum x when the column threshold is positive
(`columnsOf_colMinX_inj`), and concludes that the final output is the
same for every possible grouping order (`pipeline_determinism`) — while
for a zero threshold the output genuinely depends on the ambient order
(`pipeline_hashmap_order_counterexample`). -/

/-- `k`-fold application of the parent map. -/
def iterParent (parent : List ℕ) : ℕ → ℕ → ℕ
  | 0, i => i
  | k + 1, i => iterParent parent k (parent.getD i i)

/-- `i` is its own parent. -/
def isRoot (parent : List ℕ) (i : ℕ) : Prop := parent.getD i i = i

/-- Number of roots among the indices of `parent`. -/
def rootCount (parent : List ℕ) : ℕ :=
  ((List.range parent.length).filter (fun i => decide (parent.getD i i = i))).length

/-- Well-formedness of a union-find parent vector over `n` nodes: parents
are in range and every chain reaches a root, with chain length bounded so
that the total of chain length and root count never exceeds `n` (each
union lengthens chains by at most one and removes one root, so this is
preserved; it gives chain length at most `n - 1`, making fuel `n`
sufficient for `ufFind`). -/
def UFInv (n : ℕ) (p : List ℕ) : Prop :=
  p.length = n ∧ (∀ i, i < n → p.getD i i < n) ∧
  ∀ i, i < n → ∃ k, k + rootCount p ≤ n ∧ isRoot p (iterParent p k i)

theorem getD_set_ne (l : List ℕ) (i j v d : ℕ) (h : i ≠ j) :
    (l.set i v).getD j d = l.getD j d := by
  rw [List.getD_eq_getElem?_getD, List.getD_eq_getElem?_getD, List.getElem?_set, if_neg h]

theorem getD_set_self (l : List ℕ) (i v d : ℕ) (h : i < l.length) :
    (l.set i v).getD i d = v := by
  rw [List.getD_eq_getElem?_getD, List.getElem?_set, if_pos rfl, if_pos h]
  rfl

theorem iterParent_lt (n : ℕ) (p : List ℕ) (hp : ∀ i, i < n → p.getD i i < n) :
    ∀ k i, i < n → iterParent p k i < n := by
  intro k
  induction k with
  | zero => intro i hi; exact hi
  | succ k ih =>
      intro i hi
      show iterParent p k (p.getD i i) < n
      exact ih _ (hp i hi)

theorem iterParent_root_fix (p : List ℕ) (i : ℕ) (h : isRoot p i) :
    ∀ k, iterParent p k i = i := by
  intro k
  induction k with
  | zero => rfl
  | succ k ih =>
      show iterParent p k (p.getD i i) = i
      rw [h]
      exact ih

theorem iterParent_add (p : List ℕ) :
    ∀ a b i, iterParent p (a + b) i = iterParent p b (iterParent p a i) := by
  intro a
  induction a with
  | zero =>
      intro b i
      rw [Nat.zero_add]
      rfl
  | succ a ih =>
      intro b i
      have h1 : a + 1 + b = (a + b) + 1 := by omega
      rw [h1]
      show iterParent p (a + b) (p.getD i i) = iterParent p b (iterParent p a (p.getD i i))
      exact ih b (p.getD i i)

theorem ufFind_eq_iterParent (p : List ℕ) :
    ∀ fuel k i, k < fuel → isRoot p (iterParent p k i) →
      ufFind p fuel i = iterParent p k i := by
  intro fuel
  induction fuel with
  | zero => intro k i hk _; exact absurd hk (Nat.not_lt_zero k)
  | succ fuel ih =>
      intro k i hk hroot
      show (if p.getD i i = i then i else ufFind p fuel (p.getD i i)) = iterParent p k i
      by_cases hri : p.getD i i = i
      · rw [if_pos hri, iterParent_root_fix p i hri k]
      · rw [if_neg hri]
        rcases k with - | k'
        · exact absurd hroot hri
        · have hse : iterParent p (k' + 1) i = iterParent p k' (p.getD i i) := rfl
          rw [hse] at hroot ⊢
          exact ih k' (p.getD i i) (by omega) hroot

theorem rootCount_pos (n : ℕ) (p : List ℕ) (hlen : p.length = n) (r : ℕ)
    (hr : r < n) (hroot : isRoot p r) : 1 ≤ rootCount p := by
  rw [rootCount, hlen]
  have hmem : r ∈ (List.range n).filter (fun i => decide (p.getD i i = i)) :=
    List.mem_filter.2 ⟨List.mem_range.2 hr, decide_eq_true hroot⟩
  exact List.length_pos.2 (List.ne_nil_of_mem hmem)

theorem filter_length_set (p : List ℕ) (ra rb : ℕ)
    (hra : ra < p.length) (hrootra : isRoot p ra) (hne : rb ≠ ra) :
    ∀ m, m ≤ p.length →
      ((List.range m).filter (fun i => decide ((p.set ra rb).getD i i = i))).length +
        (if ra < m then 1 else 0) =
      ((List.range m).filter (fun i => decide (p.getD i i = i))).length := by
  intro m
  induction m with
  | zero => intro _; simp
  | succ m ih =>
      intro hm
      have ihm := ih (by omega)
      rw [List.range_succ, List.filter_append, List.filter_append,
        List.length_append, List.length_append]
      by_cases hmra : m = ra
      · have hv1 : (decide ((p.set ra rb).getD m m = m)) = false := by
          rw [hmra, getD_set_self p ra rb ra hra]
          exact decide_eq_false hne
        have hv2 : (decide (p.getD m m = m)) = true := by
          rw [hmra]
          exact decide_eq_true hrootra
        rw [List.filter_singleton, List.filter_singleton, hv1, hv2,
          Bool.cond_false, Bool.cond_true,
          if_pos (show ra < m + 1 by omega)]
        rw [if_neg (show ¬ ra < m by omega)] at ihm
        simp only [List.length_nil, List.length_cons]
        omega
      · have hpred : (decide ((p.set ra rb).getD m m = m)) = (decide (p.getD m m = m)) := by
          rw [getD_set_ne p ra m rb m (fun h => hmra h.symm)]
        rw [List.filter_singleton, List.filter_singleton, hpred]
        by_cases hcase : ra < m
        · rw [if_pos hcase] at ihm
          rw [if_pos (show ra < m + 1 by omega)]
          omega
        · rw [if_neg hcase] at ihm
          rw [if_neg (show ¬ ra < m + 1 by omega)]
          omega

theorem rootCount_set (p : List ℕ) (ra rb : ℕ)
    (hra : ra < p.length) (hrootra : isRoot p ra) (hne : rb ≠ ra) :
    rootCount (p.set ra rb) + 1 = rootCount p := by
  have h := filter_length_set p ra rb hra hrootra hne p.length le_rfl
  rw [if_pos hra] at h
  rw [rootCount, rootCount, List.length_set]
  omega

theorem iterParent_set (n : ℕ) (p : List ℕ) (hlen : p.length = n)
    (hrange : ∀ i, i < n → p.getD i i < n)
    (ra rb : ℕ) (hra : ra < n) ( _hrb : rb < n)
    (hrootra : isRoot p ra) (hrootb : isRoot p rb) (hne : ra ≠ rb) :
    ∀ k x, x < n → isRoot p (iterParent p k x) →
      ∃ k', k' ≤ k + 1 ∧ isRoot (p.set ra rb) (iterParent (p.set ra rb) k' x) ∧
        iterParent (p.set ra rb) k' x =
          (if iterParent p k x = ra then rb else iterParent p k x) := by
  have hstep1 : iterParent (p.set ra rb) 1 ra = rb := by
    show (p.set ra rb).getD ra ra = rb
    exact getD_set_self p ra rb ra (by omega)
  have hrootb' : isRoot (p.set ra rb) rb := by
    show (p.set ra rb).getD rb rb = rb
    rw [getD_set_ne p ra rb rb rb hne]
    exact hrootb
  intro k
  induction k with
  | zero =>
      intro x hx hroot
      by_cases hxra : x = ra
      · subst hxra
        refine ⟨1, by omega, ?_, ?_⟩
        · rw [hstep1]
          exact hrootb'
        · rw [hstep1, if_pos (show iterParent p 0 x = x from rfl)]
      · refine ⟨0, by omega, ?_, ?_⟩
        · show (p.set ra rb).getD x x = x
          rw [getD_set_ne p ra x rb x (fun h => hxra h.symm)]
          exact hroot
        · rw [if_neg (show ¬ iterParent p 0 x = ra from hxra)]
          rfl
  | succ k ih =>
      intro x hx hroot
      by_cases hrx : isRoot p x
      · have hfix : iterParent p (k + 1) x = x := iterParent_root_fix p x hrx (k + 1)
        by_cases hxra : x = ra
        · subst hxra
          refine ⟨1, by omega, ?_, ?_⟩
          · rw [hstep1]
            exact hrootb'
          · rw [hstep1, hfix, if_pos rfl]
        · refine ⟨0, by omega, ?_, ?_⟩
          · show (p.set ra rb).getD x x = x
            rw [getD_set_ne p ra x rb x (fun h => hxra h.symm)]
            exact hrx
          · rw [hfix, if_neg hxra]
            rfl
      · have hxra : x ≠ ra := fun h => hrx (h ▸ hrootra)
        have hy : p.getD x x < n := hrange x hx
        have hche : iterParent p (k + 1) x = iterParent p k (p.getD x x) := rfl
        have hroot' : isRoot p (iterParent p k (p.getD x x)) := by
          rw [← hche]
          exact hroot
        obtain ⟨k', hk', hroot'', hval⟩ := ih (p.getD x x) hy hroot'
        have hstep : iterParent (p.set ra rb) (k' + 1) x =
            iterParent (p.set ra rb) k' (p.getD x x) := by
          show iterParent (p.set ra rb) k' ((p.set ra rb).getD x x) = _
          rw [getD_set_ne p ra x rb x (fun h => hxra h.symm)]
        refine ⟨k' + 1, by omega, ?_, ?_⟩
        · rw [hstep]
          exact hroot''
        · rw [hstep, hval, hche]

theorem ufFind_root (n : ℕ) (p : List ℕ) (hinv : UFInv n p) (a : ℕ) (ha : a < n) :
    ufFind p n a < n ∧ isRoot p (ufFind p n a) := by
  obtain ⟨hlen, hrange, hch⟩ := hinv
  obtain ⟨k, hk, hroot⟩ := hch a ha
  have hrcpos := rootCount_pos n p hlen _ (iterParent_lt n p hrange k a ha) hroot
  have hkn : k < n := by omega
  rw [ufFind_eq_iterParent p n k a hkn hroot]
  exact ⟨iterParent_lt n p hrange k a ha, hroot⟩

theorem ufFind_set (n : ℕ) (p : List ℕ) (hinv : UFInv n p)
    (ra rb : ℕ) (hra : ra < n) (hrb : rb < n)
    (hrootra : isRoot p ra) (hrootb : isRoot p rb) (hne : ra ≠ rb)
    (u : ℕ) (hu : u < n) :
    ufFind (p.set ra rb) n u = (if ufFind p n u = ra then rb else ufFind p n u) := by
  obtain ⟨hlen, hrange, hch⟩ := hinv
  obtain ⟨k, hk, hroot⟩ := hch u hu
  have hrcpos := rootCount_pos n p hlen _ (iterParent_lt n p hrange k u hu) hroot
  have hkn : k < n := by omega
  have hfind : ufFind p n u = iterParent p k u := ufFind_eq_iterParent p n k u hkn hroot
  obtain ⟨k', hk', hroot', hval⟩ :=
    iterParent_set n p hlen hrange ra rb hra hrb hrootra hrootb hne k u hu hroot
  have hrbroot' : isRoot (p.set ra rb) rb := by
    show (p.set ra rb).getD rb rb = rb
    rw [getD_set_ne p ra rb rb rb hne]
    exact hrootb
  have hrc' : rootCount (p.set ra rb) + 1 = rootCount p :=
    rootCount_set p ra rb (by omega) hrootra (fun h => hne h.symm)
  have hrcpos' : 1 ≤ rootCount (p.set ra rb) :=
    rootCount_pos n (p.set ra rb) (by rw [List.length_set]; exact hlen) rb hrb hrbroot'
  have hk'n : k' < n := by omega
  rw [ufFind_eq_iterParent (p.set ra rb) n k' u hk'n hroot', hval, hfind]

theorem ufUnion_inv (n : ℕ) (p : List ℕ) (hinv : UFInv n p) (a b : ℕ)
    (ha : a < n) (hb : b < n) : UFInv n (ufUnion p a b) := by
  obtain ⟨hra, hrootra⟩ := ufFind_root n p hinv a ha
  obtain ⟨hrb, hrootb⟩ := ufFind_root n p hinv b hb
  simp only [ufUnion, hinv.1]
  by_cases hne : ufFind p n a ≠ ufFind p n b
  · rw [if_pos hne]
    obtain ⟨hlen, hrange, hch⟩ := hinv
    refine ⟨by rw [List.length_set]; exact hlen, ?_, ?_⟩
    · intro i hi
      by_cases hira : i = ufFind p n a
      · rw [hira, getD_set_self p _ _ _ (by omega)]
        exact hrb
      · rw [getD_set_ne p _ i _ i (fun h => hira h.symm)]
        exact hrange i hi
    · intro x hx
      obtain ⟨k, hk, hroot⟩ := hch x hx
      obtain ⟨k', hk', hroot', -⟩ :=
        iterParent_set n p hlen hrange _ _ hra hrb hrootra hrootb hne k x hx hroot
      have hrc' : rootCount (p.set (ufFind p n a) (ufFind p n b)) + 1 = rootCount p :=
        rootCount_set p _ _ (by omega) hrootra (fun h => hne h.symm)
      exact ⟨k', by omega, hroot'⟩
  · rw [if_neg hne]
    exact hinv

theorem ufUnion_pres (n : ℕ) (p : List ℕ) (hinv : UFInv n p) (a b : ℕ)
    (ha : a < n) (hb : b < n) (u v : ℕ) (hu : u < n) (hv : v < n)
    (heq : ufFind p n u = ufFind p n v) :
    ufFind (ufUnion p a b) n u = ufFind (ufUnion p a b) n v := by
  simp only [ufUnion, hinv.1]
  by_cases hne : ufFind p n a ≠ ufFind p n b
  · rw [if_pos hne]
    obtain ⟨hra, hrootra⟩ := ufFind_root n p hinv a ha
    obtain ⟨hrb, hrootb⟩ := ufFind_root n p hinv b hb
    rw [ufFind_set n p hinv _ _ hra hrb hrootra hrootb hne u hu,
      ufFind_set n p hinv _ _ hra hrb hrootra hrootb hne v hv, heq]
  · rw [if_neg hne]
    exact heq

theorem ufUnion_unites (n : ℕ) (p : List ℕ) (hinv : UFInv n p) (a b : ℕ)
    (ha : a < n) (hb : b < n) :
    ufFind (ufUnion p a b) n a = ufFind (ufUnion p a b) n b := by
  simp only [ufUnion, hinv.1]
  by_cases hne : ufFind p n a ≠ ufFind p n b
  · rw [if_pos hne]
    obtain ⟨hra, hrootra⟩ := ufFind_root n p hinv a ha
    obtain ⟨hrb, hrootb⟩ := ufFind_root n p hinv b hb
    rw [ufFind_set n p hinv _ _ hra hrb hrootra hrootb hne a ha,
      ufFind_set n p hinv _ _ hra hrb hrootra hrootb hne b hb,
      if_pos rfl, if_neg (fun h => hne h.symm)]
  · rw [if_neg hne]
    exact not_ne_iff.mp hne

/-- The inner loop body of the pair loop, over an abstract pair test. -/
def pairFold (same : ℕ → ℕ → Bool) (i : ℕ) (js : List ℕ) (p : List ℕ) : List ℕ :=
  js.foldl (fun par j => if same i j then ufUnion par i j else par) p

theorem pairFold_spec (same : ℕ → ℕ → Bool) (n i : ℕ) (hi : i < n) :
    ∀ (js : List ℕ) (p : List ℕ), UFInv n p → (∀ j ∈ js, j < n) →
      UFInv n (pairFold same i js p) ∧
      (∀ u v, u < n → v < n → ufFind p n u = ufFind p n v →
        ufFind (pairFold same i js p) n u = ufFind (pairFold same i js p) n v) ∧
      (∀ j ∈ js, same i j = true →
        ufFind (pairFold same i js p) n i = ufFind (pairFold same i js p) n j) := by
  intro js
  induction js with
  | nil =>
      intro p hinv _
      exact ⟨hinv, fun u v _ _ h => h, by simp⟩
  | cons j js ih =>
      intro p hinv hjs
      have hj : j < n := hjs j (List.mem_cons_self j js)
      have hinv₁ : UFInv n (if same i j then ufUnion p i j else p) := by
        split
        · exact ufUnion_inv n p hinv i j hi hj
        · exact hinv
      have hpres₁ : ∀ u v, u < n → v < n → ufFind p n u = ufFind p n v →
          ufFind (if same i j then ufUnion p i j else p) n u =
          ufFind (if same i j then ufUnion p i j else p) n v := by
        intro u v hu hv h
        split
        · exact ufUnion_pres n p hinv i j hi hj u v hu hv h
        · exact h
      have hfold : pairFold same i (j :: js) p =
          pairFold same i js (if same i j then ufUnion p i j else p) := by
        rw [pairFold, List.foldl_cons]
        rfl
      obtain ⟨hinvq, hpresq, hnewq⟩ :=
        ih (if same i j then ufUnion p i j else p) hinv₁
          (fun j' hj' => hjs j' (List.mem_cons_of_mem _ hj'))
      refine ⟨hfold ▸ hinvq, ?_, ?_⟩
      · intro u v hu hv h
        rw [hfold]
        exact hpresq u v hu hv (hpres₁ u v hu hv h)
      · intro j' hj' hsame
        rw [hfold]
        rcases List.mem_cons.1 hj' with rfl | hj'
        · have hstep : ufFind (if same i j' then ufUnion p i j' else p) n i =
              ufFind (if same i j' then ufUnion p i j' else p) n j' := by
            rw [if_pos hsame]
            exact ufUnion_unites n p hinv i j' hi hj
          exact hpresq i j' hi hj hstep
        · exact hnewq j' hj' hsame

theorem allPairsFold_spec (same : ℕ → ℕ → Bool) (n : ℕ) :
    ∀ (li : List ℕ) (p : List ℕ), UFInv n p → (∀ i ∈ li, i < n) →
      UFInv n (li.foldl (fun par i => pairFold same i (List.range' (i + 1) (n - (i + 1))) par) p) ∧
      (∀ u v, u < n → v < n → ufFind p n u = ufFind p n v →
        ufFind (li.foldl (fun par i => pairFold same i (List.range' (i + 1) (n - (i + 1))) par) p) n u =
        ufFind (li.foldl (fun par i => pairFold same i (List.range' (i + 1) (n - (i + 1))) par) p) n v) ∧
      (∀ i ∈ li, ∀ j, i < j → j < n → same i j = true →
        ufFind (li.foldl (fun par i => pairFold same i (List.range' (i + 1) (n - (i + 1))) par) p) n i =
        ufFind (li.foldl (fun par i => pairFold same i (List.range' (i + 1) (n - (i + 1))) par) p) n j) := by
  intro li
  induction li with
  | nil =>
      intro p hinv _
      exact ⟨hinv, fun u v _ _ h => h, by simp⟩
  | cons i li ih =>
      intro p hinv hli
      have hi : i < n := hli i (List.mem_cons_self i li)
      obtain ⟨hinv₁, hpres₁, hnew₁⟩ :=
        pairFold_spec same n i hi (List.range' (i + 1) (n - (i + 1))) p hinv
          (fun j hj => by
            have := List.mem_range'_1.1 hj
            omega)
      have hfold : (i :: li).foldl
            (fun par i => pairFold same i (List.range' (i + 1) (n - (i + 1))) par) p =
          li.foldl (fun par i => pairFold same i (List.range' (i + 1) (n - (i + 1))) par)
            (pairFold same i (List.range' (i + 1) (n - (i + 1))) p) :=
        List.foldl_cons _ _
      obtain ⟨hinvq, hpresq, hnewq⟩ :=
        ih (pairFold same i (List.range' (i + 1) (n - (i + 1))) p) hinv₁
          (fun i' hi' => hli i' (List.mem_cons_of_mem _ hi'))
      refine ⟨hfold ▸ hinvq, ?_, ?_⟩
      · intro u v hu hv h
        rw [hfold]
        exact hpresq u v hu hv (hpres₁ u v hu hv h)
      · intro i' hi' j hij hj hsame
        rw [hfold]
        rcases List.mem_cons.1 hi' with rfl | hi'
        · have hstep := hnew₁ j (List.mem_range'_1.2 ⟨by omega, by omega⟩) hsame
          exact hpresq i' j hi hj hstep
        · exact hnewq i' hi' j hij hj hsame

theorem range_UFInv (n : ℕ) : UFInv n (List.range n) := by
  have hget : ∀ i, i < n → (List.range n).getD i i = i := by
    intro i hi
    rw [List.getD_eq_getElem?_getD, List.getElem?_range hi]
    rfl
  refine ⟨List.length_range n, fun i hi => by rw [hget i hi]; exact hi, ?_⟩
  intro i hi
  refine ⟨0, ?_, ?_⟩
  · have hrc : rootCount (List.range n) = n := by
      rw [rootCount, List.length_range]
      rw [List.filter_eq_self.2 ?_, List.length_range]
      intro a ha
      exact decide_eq_true (hget a (List.mem_range.1 ha))
    omega
  · show isRoot (List.range n) i
    exact hget i hi

theorem perm_pairwise_eq {α : Type} {r : α → α → Prop} :
    ∀ (l₁ l₂ : List α), l₁.Perm l₂ → l₁.Pairwise r → l₂.Pairwise r →
      (∀ a, a ∈ l₁ → ∀ b, b ∈ l₁ → r a b → r b a → a = b) → l₁ = l₂ := by
  intro l₁
  induction l₁ with
  | nil =>
      intro l₂ hp _ _ _
      exact (hp.symm.eq_nil).symm
  | cons a t ih =>
      intro l₂ hp hs₁ hs₂ anti
      rcases l₂ with - | ⟨b, t₂⟩
      · exact hp.eq_nil
      · by_cases hab : a = b
        · subst hab
          have ht : t.Perm t₂ := hp.cons_inv
          have := ih t₂ ht (List.pairwise_cons.1 hs₁).2 (List.pairwise_cons.1 hs₂).2
            (fun x hx y hy => anti x (List.mem_cons_of_mem _ hx) y (List.mem_cons_of_mem _ hy))
          rw [this]
        · have hat₂ : a ∈ t₂ := by
            have ha : a ∈ b :: t₂ := hp.mem_iff.1 (List.mem_cons_self a t)
            rcases List.mem_cons.1 ha with h | h
            · exact absurd h hab
            · exact h
          have hbt : b ∈ t := by
            have hb : b ∈ a :: t := hp.symm.mem_iff.1 (List.mem_cons_self b t₂)
            rcases List.mem_cons.1 hb with h | h
            · exact absurd h.symm hab
            · exact h
          have hrab : r a b := (List.pairwise_cons.1 hs₁).1 b hbt
          have hrba : r b a := (List.pairwise_cons.1 hs₂).1 a hat₂
          exact absurd (anti a (List.mem_cons_self a t) b (List.mem_cons_of_mem _ hbt) hrab hrba)
            hab

theorem foldl_min_le_init (l : List ℚ) : ∀ a : ℚ, l.foldl min a ≤ a := by
  induction l with
  | nil => intro a; exact le_refl a
  | cons c t ih =>
      intro a
      rw [List.foldl_cons]
      exact le_trans (ih (min a c)) (min_le_left a c)

theorem foldl_min_le_mem (l : List ℚ) : ∀ a : ℚ, ∀ b ∈ l, l.foldl min a ≤ b := by
  induction l with
  | nil => intro a b hb; exact absurd hb (List.not_mem_nil b)
  | cons c t ih =>
      intro a b hb
      rw [List.foldl_cons]
      rcases List.mem_cons.1 hb with rfl | hb
      · exact le_trans (foldl_min_le_init t (min a b)) (min_le_right a b)
      · exact ih (min a c) b hb

theorem foldl_min_choice (l : List ℚ) : ∀ a : ℚ, l.foldl min a = a ∨ l.foldl min a ∈ l := by
  induction l with
  | nil => intro a; exact Or.inl rfl
  | cons c t ih =>
      intro a
      rw [List.foldl_cons]
      rcases ih (min a c) with h | h
      · rcases min_choice a c with hm | hm
        · exact Or.inl (h.trans hm)
        · exact Or.inr (by rw [h, hm]; exact List.mem_cons_self c t)
      · exact Or.inr (List.mem_cons_of_mem c h)

theorem ufParent_spec (blocks : List LayoutBlock) (ct : ℚ) :
    UFInv blocks.length (ufParent blocks ct) ∧
    ∀ i j, i < j → j < blocks.length → sameColumnPair blocks ct i j = true →
      columnRoot blocks ct i = columnRoot blocks ct j := by
  have hfold : ufParent blocks ct =
      (List.range blocks.length).foldl
        (fun par i => pairFold (fun a b => sameColumnPair blocks ct a b) i
          (List.range' (i + 1) (blocks.length - (i + 1))) par)
        (List.range blocks.length) := rfl
  obtain ⟨hinv, -, hpairs⟩ :=
    allPairsFold_spec (fun a b => sameColumnPair blocks ct a b) blocks.length
      (List.range blocks.length) (List.range blocks.length)
      (range_UFInv blocks.length) (fun i hi => List.mem_range.1 hi)
  constructor
  · rw [hfold]
    exact hinv
  · intro i j hij hj hsame
    have hi : i < blocks.length := by omega
    have h := hpairs i (List.mem_range.2 hi) j hij hj hsame
    have hlen : (ufParent blocks ct).length = blocks.length := by
      rw [hfold]
      exact hinv.1
    simp only [columnRoot, hlen]
    rw [hfold]
    exact h

theorem colMinX_attained (blocks : List LayoutBlock) (col : List ℕ) (hne : col ≠ []) :
    (∃ i ∈ col, colMinX blocks col = (blocks.getD i default).bbox.x) ∧
    ∀ i ∈ col, colMinX blocks col ≤ (blocks.getD i default).bbox.x := by
  match col with
  | [] => exact absurd rfl hne
  | i :: rest =>
      simp only [colMinX]
      constructor
      · rcases foldl_min_choice (rest.map fun j => (blocks.getD j default).bbox.x)
            ((blocks.getD i default).bbox.x) with h | h
        · exact ⟨i, List.mem_cons_self _ _, h⟩
        · obtain ⟨j, hj, hval⟩ := List.mem_map.1 h
          exact ⟨j, List.mem_cons_of_mem _ hj, hval.symm⟩
      · intro j hj
        rcases List.mem_cons.1 hj with rfl | hj
        · exact foldl_min_le_init _ _
        · exact foldl_min_le_mem _ _ _ (List.mem_map_of_mem _ hj)

theorem columnsOf_shape (blocks : List LayoutBlock) (ct : ℚ) (c : List ℕ)
    (hc : c ∈ columnsOf blocks ct) :
    ∃ r, r ∈ distinctKeys ((List.range blocks.length).map (columnRoot blocks ct)) ∧
      c = (List.range blocks.length).filter
        (fun i => columnRoot blocks ct i = r) := by
  rw [columnsOf] at hc
  obtain ⟨r, hr, hcr⟩ := List.mem_map.1 hc
  exact ⟨r, hr, hcr.symm⟩

theorem columnsOf_key_mem (blocks : List LayoutBlock) (ct : ℚ) (r : ℕ)
    (hr : r ∈ distinctKeys ((List.range blocks.length).map (columnRoot blocks ct))) :
    ∃ i₀, i₀ ∈ List.range blocks.length ∧ columnRoot blocks ct i₀ = r := by
  have h := (distinctKeys_mem r _).1 hr
  obtain ⟨i₀, hi₀, hri₀⟩ := List.mem_map.1 h
  exact ⟨i₀, hi₀, hri₀⟩

theorem columnsOf_colMinX_inj (blocks : List LayoutBlock) (ct : ℚ) (hct : 0 < ct)
    (c c' : List ℕ) (hc : c ∈ columnsOf blocks ct) (hc' : c' ∈ columnsOf blocks ct)
    (hx : colMinX blocks c = colMinX blocks c') : c = c' := by
  obtain ⟨r, hr, rfl⟩ := columnsOf_shape blocks ct c hc
  obtain ⟨r', hr', rfl⟩ := columnsOf_shape blocks ct c' hc'
  by_cases hrr : r = r'
  · rw [hrr]
  · exfalso
    obtain ⟨i₀, hi₀, hri₀⟩ := columnsOf_key_mem blocks ct r hr
    obtain ⟨i₀', hi₀', hri₀'⟩ := columnsOf_key_mem blocks ct r' hr'
    have hneC : (List.range blocks.length).filter
        (fun i => columnRoot blocks ct i = r) ≠ [] :=
      List.ne_nil_of_mem (List.mem_filter.2 ⟨hi₀, decide_eq_true hri₀⟩)
    have hneC' : (List.range blocks.length).filter
        (fun i => columnRoot blocks ct i = r') ≠ [] :=
      List.ne_nil_of_mem (List.mem_filter.2 ⟨hi₀', decide_eq_true hri₀'⟩)
    obtain ⟨⟨i, hi, hxi⟩, -⟩ := colMinX_attained blocks _ hneC
    obtain ⟨⟨i', hi', hxi'⟩, -⟩ := colMinX_attained blocks _ hneC'
    have hiF := List.mem_filter.1 hi
    have hi'F := List.mem_filter.1 hi'
    have hroots : columnRoot blocks ct i = r := of_decide_eq_true hiF.2
    have hroots' : columnRoot blocks ct i' = r' := of_decide_eq_true hi'F.2
    have hin : i < blocks.length := List.mem_range.1 hiF.1
    have hin' : i' < blocks.length := List.mem_range.1 hi'F.1
    have hxx : (blocks.getD i default).bbox.x = (blocks.getD i' default).bbox.x := by
      rw [← hxi, ← hxi', hx]
    have hsame : ∀ u v : ℕ,
        (blocks.getD u default).bbox.x = (blocks.getD v default).bbox.x →
        sameColumnPair blocks ct u v = true := by
      intro u v huv
      simp only [sameColumnPair]
      apply decide_eq_true
      left
      rw [huv, sub_self, abs_zero]
      exact hct
    rcases Nat.lt_trichotomy i i' with hlt | heq | hgt
    · have h := (ufParent_spec blocks ct).2 i i' hlt hin' (hsame i i' hxx)
      rw [hroots, hroots'] at h
      exact hrr h
    · rw [heq, hroots'] at hroots
      exact hrr hroots.symm
    · have h := (ufParent_spec blocks ct).2 i' i hgt hin (hsame i' i hxx.symm)
      rw [hroots, hroots'] at h
      exact hrr h.symm

theorem mergeSort_minx_eq (blocks : List LayoutBlock) (ct : ℚ) (hct : 0 < ct)
    (cols : List (List ℕ)) (hperm : cols.Perm (columnsOf blocks ct)) :
    List.mergeSort cols (fun ca cb => decide (colMinX blocks ca ≤ colMinX blocks cb)) =
    List.mergeSort (columnsOf blocks ct)
      (fun ca cb => decide (colMinX blocks ca ≤ colMinX blocks cb)) := by
  have htrans : ∀ a b c : List ℕ,
      (fun ca cb => decide (colMinX blocks ca ≤ colMinX blocks cb)) a b = true →
      (fun ca cb => decide (colMinX blocks ca ≤ colMinX blocks cb)) b c = true →
      (fun ca cb => decide (colMinX blocks ca ≤ colMinX blocks cb)) a c = true := by
    intro a b c h1 h2
    simp only [decide_eq_true_iff] at h1 h2 ⊢
    exact le_trans h1 h2
  have htot : ∀ a b : List ℕ,
      ((fun ca cb => decide (colMinX blocks ca ≤ colMinX blocks cb)) a b ||
       (fun ca cb => decide (colMinX blocks ca ≤ colMinX blocks cb)) b a) = true := by
    intro a b
    simp only [Bool.or_eq_true, decide_eq_true_iff]
    exact le_total _ _
  refine @perm_pairwise_eq (List ℕ)
    (fun a b => (decide (colMinX blocks a ≤ colMinX blocks b)) = true) _ _ ?_ ?_ ?_ ?_
  · exact (List.mergeSort_perm cols _).trans
      (hperm.trans (List.mergeSort_perm (columnsOf blocks ct) _).symm)
  · exact List.sorted_mergeSort htrans htot cols
  · exact List.sorted_mergeSort htrans htot _
  · intro a ha b hb hab hba
    have ha' : a ∈ columnsOf blocks ct :=
      hperm.mem_iff.1 ((List.mergeSort_perm cols _).mem_iff.1 ha)
    have hb' : b ∈ columnsOf blocks ct :=
      hperm.mem_iff.1 ((List.mergeSort_perm cols _).mem_iff.1 hb)
    have h1 : colMinX blocks a ≤ colMinX blocks b := by
      simpa using hab
    have h2 : colMinX blocks b ≤ colMinX blocks a := by
      simpa using hba
    exact columnsOf_colMinX_inj blocks ct hct a b ha' hb' (le_antisymm h1 h2)

/-- `readingOrderList` with the column list supplied explicitly.  The
source collects the grouped columns as `column_map.into_values()`
(layout.rs:428), whose iteration order is ambient state (the `HashMap`'s
salted hash order): any permutation of the canonical first-occurrence
grouping `columnsOf` is a possible value.  `readingOrderList blocks ct`
is exactly this function at the canonical order. -/
def readingOrderListWith (blocks : List LayoutBlock) (cols : List (List ℕ)) : List ℕ :=
  ((List.mergeSort cols
      (fun ca cb => decide (colMinX blocks ca ≤ colMinX blocks cb))).map
    (fun col => List.mergeSort col
      (fun i j => decide ((blocks.getD i default).bbox.y ≤
        (blocks.getD j default).bbox.y)))).flatten

/-- `assign_reading_order` (layout.rs:371-445) with the grouping
`HashMap`'s column iteration order supplied explicitly; the page width
enters the result only through the grouping, so it is unused here. -/
def assign_reading_orderWith (blocks : List LayoutBlock) ( _page_width : ℚ)
    (cols : List (List ℕ)) : List LayoutBlock :=
  if blocks.isEmpty then blocks
  else
    blocks.enum.map (fun p =>
      { p.2 with order := (readingOrderListWith blocks cols).indexOf p.1 })

/-- C3: pipeline determinism, corrected.  `nms` and
`detect_lines_for_blocks` are plain functions of their declared inputs.
`assign_reading_order` additionally reads ambient state: the iteration
order of the grouping `HashMap` (layout.rs:428), exposed here as the
explicit column-list parameter of `assign_reading_orderWith`.  The
canonical first-occurrence order gives back `assign_reading_order`
exactly, and for positive page width every other iteration order — any
permutation of the canonical column list — produces the same output: two
distinct columns always differ in minimum x (otherwise their minima
would be within the positive column threshold and the union-find closure
would have merged them), so the sort by minimum x has a unique result
and the ambient order cannot reach the output.  For non-positive page
width this fails (`pipeline_hashmap_order_counterexample`). -/
theorem pipeline_determinism (blocks : List LayoutBlock) (page_width : ℚ)
    (cols : List (List ℕ)) (hpw : 0 < page_width)
    (hperm : cols.Perm (columnsOf blocks (page_width * (15/100)))) :
    assign_reading_order blocks page_width =
      assign_reading_orderWith blocks page_width
        (columnsOf blocks (page_width * (15/100))) ∧
    assign_reading_orderWith blocks page_width cols =
      assign_reading_order blocks page_width := by
  have hct : 0 < page_width * (15/100) := mul_pos hpw (by norm_num)
  have hms := mergeSort_minx_eq blocks (page_width * (15/100)) hct cols hperm
  have hro : readingOrderListWith blocks cols =
      readingOrderList blocks (page_width * (15/100)) := by
    simp only [readingOrderListWith, readingOrderList]
    rw [hms]
  refine ⟨rfl, ?_⟩
  simp only [assign_reading_orderWith, assign_reading_order]
  rw [hro]

theorem pipeline_determinism_witness :
    (0 : ℚ) < 800 ∧
    assign_reading_orderWith [wBlockA, wBlockB] 800
        ((columnsOf [wBlockA, wBlockB] (800 * (15/100))).reverse) =
      assign_reading_order [wBlockA, wBlockB] 800 :=
  ⟨by norm_num,
    (pipeline_determinism [wBlockA, wBlockB] 800
      ((columnsOf [wBlockA, wBlockB] (800 * (15/100))).reverse) (by norm_num)
      (List.reverse_perm _)).2⟩

/-- Two zero-width blocks at the same x: with `page_width = 0` the
column threshold is 0, neither clustering test fires, and the blocks
form two distinct singleton columns tied on minimum x. -/
def czA : LayoutBlock :=
  { bbox := ⟨0, 0, 0, 0⟩, class_id := 0, confidence := 1, order := 0, lines := [] }

def czB : LayoutBlock :=
  { bbox := ⟨0, 1, 0, 0⟩, class_id := 0, confidence := 1, order := 0, lines := [] }

theorem cz_columnsOf :
    columnsOf [czA, czB] 0 = [[0], [1]] := by
  norm_num [columnsOf, columnRoot, ufParent, ufUnion, ufFind, sameColumnPair,
    distinctKeys, czA, czB, List.range_succ, List.range'_succ]

theorem cz_rol1 : readingOrderListWith [czA, czB] [[0], [1]] = [0, 1] := by
  have hs : List.Pairwise (fun a b =>
      (fun ca cb => decide (colMinX [czA, czB] ca ≤ colMinX [czA, czB] cb)) a b = true)
      [[0], [1]] := by
    norm_num [List.pairwise_cons, colMinX, czA, czB]
  simp only [readingOrderListWith]
  rw [List.mergeSort_of_sorted hs]
  simp [List.mergeSort_singleton]

theorem cz_rol2 : readingOrderListWith [czA, czB] [[1], [0]] = [1, 0] := by
  have hs : List.Pairwise (fun a b =>
      (fun ca cb => decide (colMinX [czA, czB] ca ≤ colMinX [czA, czB] cb)) a b = true)
      [[1], [0]] := by
    norm_num [List.pairwise_cons, colMinX, czA, czB]
  simp only [readingOrderListWith]
  rw [List.mergeSort_of_sorted hs]
  simp [List.mergeSort_singleton]

theorem cz_ne :
    assign_reading_orderWith [czA, czB] 0 [[0], [1]] ≠
    assign_reading_orderWith [czA, czB] 0 [[1], [0]] := by
  have h1 : assign_reading_orderWith [czA, czB] 0 [[0], [1]] =
      [{ czA with order := 0 }, { czB with order := 1 }] := by
    simp only [assign_reading_orderWith, cz_rol1]
    rfl
  have h2 : assign_reading_orderWith [czA, czB] 0 [[1], [0]] =
      [{ czA with order := 1 }, { czB with order := 0 }] := by
    simp only [assign_reading_orderWith, cz_rol2]
    rfl
  rw [h1, h2]
  intro h
  have h0 := congrArg (fun l => (l.getD 0 default).order) h
  simp at h0

/-- C3 counterexample: both column orders below are legitimate grouping
orders (permutations of the canonical `columnsOf` grouping) for the same
input, yet with `page_width = 0` they yield different `order`
assignments: the stable min-x sort preserves the tie between the two
columns, so the source's output depends on the ambient hash order. -/
theorem pipeline_hashmap_order_counterexample :
    [[0], [1]].Perm (columnsOf [czA, czB] ((0 : ℚ) * (15/100))) ∧
    [[1], [0]].Perm (columnsOf [czA, czB] ((0 : ℚ) * (15/100))) ∧
    assign_reading_orderWith [czA, czB] 0 [[0], [1]] ≠
      assign_reading_orderWith [czA, czB] 0 [[1], [0]] := by
  have h0 : (0 : ℚ) * (15/100) = 0 := by norm_num
  rw [h0, cz_columnsOf]
  exact ⟨List.Perm.refl _, List.Perm.swap _ _ _, cz_ne⟩

/-! ### Detection parsing (the BoxFilter stage of `analyze_page`,
layout.rs:223-269)

For this stage NaN behaviour is the point, so `f32` values are modelled
as `Option ℚ`, `none` playing NaN, with Rust semantics: `<` is false
whenever a side is NaN, and `f32::max` / `f32::min` ignore a NaN
argument. -/

/-- Rust `<` on possibly-NaN floats. -/
def fLt : Option ℚ → Option ℚ → Bool
  | some x, some y => decide (x < y)
  | _, _ => false

/-- Rust `f32::max`, which ignores a NaN argument. -/
def fMax : Option ℚ → Option ℚ → Option ℚ
  | none, b => b
  | some x, none => some x
  | some x, some y => some (max x y)

/-- Rust `f32::min`, which ignores a NaN argument. -/
def fMin : Option ℚ → Option ℚ → Option ℚ
  | none, b => b
  | some x, none => some x
  | some x, some y => some (min x y)

/-- One row of the detection tensor: class id (the source casts the f32
to usize), confidence and corner coordinates as possibly-NaN floats. -/
structure DetRow where
  class_id : ℕ
  confidence : Option ℚ
  xmin : Option ℚ
  ymin : Option ℚ
  xmax : Option ℚ
  ymax : Option ℚ
deriving DecidableEq

/-- A block as the parse loop pushes it: the bbox coordinates are plain
rationals — clamping both corners against finite bounds eliminates NaN
from the geometry — but the confidence is carried through unchanged and
may still be NaN. -/
structure ParsedBlock where
  bbox : BBox
  class_id : ℕ
  confidence : Option ℚ
deriving DecidableEq

/-- The per-row filter of `analyze_page` (layout.rs:224-269): reject
`confidence < 0.4` (false — hence no rejection — when the confidence is
NaN), reject class ids outside the 23-entry class table, clamp the
corners to the bitmap, reject non-positive or sub-5-pixel extents, and
scale to page points. -/
def parseRow (r : DetRow) (origW origH sx sy : ℚ) : Option ParsedBlock :=
  if fLt r.confidence (some (2/5)) then none
  else if 23 ≤ r.class_id then none
  else
    let x := (fMax r.xmin (some 0)).getD 0
    let y := (fMax r.ymin (some 0)).getD 0
    let w := (fMin r.xmax (some origW)).getD 0 - x
    let h := (fMin r.ymax (some origH)).getD 0 - y
    if w ≤ 0 ∨ h ≤ 0 then none
    else if w < 5 ∨ h < 5 then none
    else some { bbox := { x := x * sx, y := y * sy, w := w * sx, h := h * sy },
                class_id := r.class_id, confidence := r.confidence }

/-- The whole BoxFilter loop over the raw rows. -/
def boxFilter (rows : List DetRow) (origW origH sx sy : ℚ) : List ParsedBlock :=
  rows.filterMap (fun r => parseRow r origW origH sx sy)

/-! #### Claim C6 -/

/-- C6 (amended, geometry half): every block that survives BoxFilter has
finite, positive, at-least-5-pixel extents and a known class — the
downstream stages never observe degenerate box geometry. -/
theorem boxFilter_geometry (rows : List DetRow) (origW origH sx sy : ℚ)
    (hsx : 0 < sx) (hsy : 0 < sy) :
    ∀ b ∈ boxFilter rows origW origH sx sy,
      5 * sx ≤ b.bbox.w ∧ 5 * sy ≤ b.bbox.h ∧ 0 < b.bbox.w ∧ 0 < b.bbox.h ∧
      b.class_id < 23 := by
  intro b hb
  obtain ⟨r, hr, hparse⟩ := List.mem_filterMap.1 hb
  simp only [parseRow] at hparse
  split at hparse
  · exact absurd hparse (by simp)
  · split at hparse
    · exact absurd hparse (by simp)
    · split at hparse
      · exact absurd hparse (by simp)
      · split at hparse
        · exact absurd hparse (by simp)
        · rename_i hconf hclass hpos hsmall
          simp only [Option.some.injEq] at hparse
          rw [← hparse]
          push_neg at hpos hsmall hclass
          refine ⟨?_, ?_, ?_, ?_, ?_⟩
          · exact mul_le_mul_of_nonneg_right hsmall.1 (le_of_lt hsx)
          · exact mul_le_mul_of_nonneg_right hsmall.2 (le_of_lt hsy)
          · exact mul_pos (lt_of_lt_of_le (by norm_num) hsmall.1) hsx
          · exact mul_pos (lt_of_lt_of_le (by norm_num) hsmall.2) hsy
          · show r.class_id < 23
            exact hclass

/-- A malformed detection row: NaN confidence on a healthy box. -/
def nanRow : DetRow :=
  { class_id := 2, confidence := none, xmin := some 10, ymin := some 10,
    xmax := some 50, ymax := some 50 }

theorem boxFilter_nanRow_eval :
    boxFilter [nanRow] 100 100 1 1 =
      [{ bbox := ⟨10, 10, 40, 40⟩, class_id := 2, confidence := none }] := by
  norm_num [boxFilter, parseRow, nanRow, fLt, fMax, fMin,
    List.filterMap_cons, List.filterMap_nil]

/-- C6 counterexample: a NaN-confidence row is NOT rejected by BoxFilter
(`NaN < 0.4` is false in Rust), so the NaN confidence reaches `nms`,
whose `partial_cmp(..).unwrap()` sort comparator panics on it. -/
theorem boxFilter_nan_confidence_passes :
    (boxFilter [nanRow] 100 100 1 1).length = 1 ∧
    ∃ b ∈ boxFilter [nanRow] 100 100 1 1, b.confidence = none := by
  rw [boxFilter_nanRow_eval]
  exact ⟨rfl, ⟨_, List.mem_singleton_self _, rfl⟩⟩

theorem boxFilter_geometry_witness :
    ∃ b ∈ boxFilter [nanRow] 100 100 1 1,
      5 * 1 ≤ b.bbox.w ∧ 5 * 1 ≤ b.bbox.h ∧ 0 < b.bbox.w ∧ 0 < b.bbox.h ∧
      b.class_id < 23 := by
  have hb : ({ bbox := ⟨10, 10, 40, 40⟩, class_id := 2, confidence := none } : ParsedBlock) ∈
      boxFilter [nanRow] 100 100 1 1 := by
    rw [boxFilter_nanRow_eval]
    exact List.mem_singleton_self _
  exact ⟨_, hb, boxFilter_geometry [nanRow] 100 100 1 1 (by norm_num) (by norm_num) _ hb⟩

/-! #### Line-segmentation lemmas -/

theorem range'_drop (m : ℕ) : ∀ s t : ℕ, (List.range' s m).drop t = List.range' (s + t) (m - t) := by
  induction m with
  | zero => intro s t; simp
  | succ m ih =>
      intro s t
      rw [List.range'_succ]
      match t with
      | 0 =>
          rw [List.drop_zero]
          simp only [Nat.add_zero, Nat.sub_zero]
          exact (List.range'_succ s m 1).symm
      | t + 1 =>
          rw [List.drop_succ_cons, ih (s + 1) t]
          congr 1 <;> omega

theorem range'_take (m : ℕ) : ∀ s t : ℕ, t ≤ m → (List.range' s m).take t = List.range' s t := by
  induction m with
  | zero => intro s t ht; interval_cases t; simp
  | succ m ih =>
      intro s t ht
      rw [List.range'_succ]
      match t with
      | 0 => simp
      | t + 1 =>
          rw [List.take_succ_cons, ih (s + 1) t (by omega), ← List.range'_succ]

theorem getD_map_range {α : Type} (g : ℕ → α) (H r : ℕ) (hr : r < H) (d : α) :
    ((List.range H).map g).getD r d = g r := by
  rw [List.getD_eq_getElem?_getD, List.getElem?_map, List.getElem?_range hr]
  rfl

theorem foldl_runStep_false (pred : ℕ → Bool) :
    ∀ (m s : ℕ) (L : List (ℕ × ℕ)),
      (∀ r, s ≤ r → r < s + m → pred r = false) →
      (List.range' s m).foldl (runStep pred) (none, L) = (none, L) := by
  intro m
  induction m with
  | zero => intro s L _; rfl
  | succ m ih =>
      intro s L hfalse
      rw [List.range'_succ, List.foldl_cons]
      have h0 : pred s = false := hfalse s le_rfl (by omega)
      have hstep : runStep pred (none, L) s = (none, L) := by
        rw [runStep, h0]
        simp
      rw [hstep]
      exact ih (s + 1) L (fun r h1 h2 => hfalse r (by omega) (by omega))

theorem foldl_runStep_true_open (pred : ℕ → Bool) :
    ∀ (m s v : ℕ) (L : List (ℕ × ℕ)),
      (∀ r, s ≤ r → r < s + m → pred r = true) →
      (List.range' s m).foldl (runStep pred) (some v, L) = (some v, L) := by
  intro m
  induction m with
  | zero => intro s v L _; rfl
  | succ m ih =>
      intro s v L htrue
      rw [List.range'_succ, List.foldl_cons]
      have h0 : pred s = true := htrue s le_rfl (by omega)
      have hstep : runStep pred (some v, L) s = (some v, L) := by
        rw [runStep, h0]
        simp
      rw [hstep]
      exact ih (s + 1) v L (fun r h1 h2 => htrue r (by omega) (by omega))

theorem foldl_runStep_true (pred : ℕ → Bool) (m s : ℕ) (L : List (ℕ × ℕ))
    (hm : 1 ≤ m) (htrue : ∀ r, s ≤ r → r < s + m → pred r = true) :
    (List.range' s m).foldl (runStep pred) (none, L) = (some s, L) := by
  obtain ⟨m', rfl⟩ : ∃ m', m = m' + 1 := ⟨m - 1, by omega⟩
  rw [List.range'_succ, List.foldl_cons]
  have h0 : pred s = true := htrue s le_rfl (by omega)
  have hstep : runStep pred (none, L) s = (some s, L) := by
    rw [runStep, h0]
    simp
  rw [hstep]
  exact foldl_runStep_true_open pred m' (s + 1) s L
    (fun r h1 h2 => htrue r (by omega) (by omega))

theorem foldl_runStep_close (pred : ℕ → Bool) (m s v : ℕ) (L : List (ℕ × ℕ))
    (hm : 1 ≤ m) (hrun : 3 ≤ s - v)
    (hfalse : ∀ r, s ≤ r → r < s + m → pred r = false) :
    (List.range' s m).foldl (runStep pred) (some v, L) = (none, L ++ [(v, s - v)]) := by
  obtain ⟨m', rfl⟩ : ∃ m', m = m' + 1 := ⟨m - 1, by omega⟩
  rw [List.range'_succ, List.foldl_cons]
  have h0 : pred s = false := hfalse s le_rfl (by omega)
  have hstep : runStep pred (some v, L) s = (none, L ++ [(v, s - v)]) := by
    rw [runStep, h0]
    simp [hrun]
  rw [hstep]
  exact foldl_runStep_false pred m' (s + 1) _
    (fun r h1 h2 => hfalse r (by omega) (by omega))

/-- When the predicate holds exactly on `[lo, hi)` inside `[0, H)` and
the run is at least 3 rows tall, the scan finds exactly that run. -/
theorem detectRuns_single (pred : ℕ → Bool) (H lo hi : ℕ)
    (hlo : lo < hi) (hhi : hi ≤ H) (hlen : 3 ≤ hi - lo)
    (hpred : ∀ r, r < H → (pred r = true ↔ (lo ≤ r ∧ r < hi))) :
    detectRuns pred H = [(lo, hi - lo)] := by
  have hfalse_lo : ∀ r, 0 ≤ r → r < 0 + lo → pred r = false := by
    intro r _ hr
    have := hpred r (by omega)
    rcases h : pred r with - | -
    · rfl
    · exact absurd (this.1 h) (by omega)
  have htrue_mid : ∀ r, lo ≤ r → r < lo + (hi - lo) → pred r = true := by
    intro r h1 h2
    exact (hpred r (by omega)).2 ⟨h1, by omega⟩
  have hfalse_hi : ∀ r, hi ≤ r → r < hi + (H - hi) → pred r = false := by
    intro r h1 h2
    have := hpred r (by omega)
    rcases h : pred r with - | -
    · rfl
    · exact absurd (this.1 h) (by omega)
  have hsplit1 : List.range' 0 lo ++ List.range' lo (hi - lo) = List.range' 0 hi := by
    have h := List.range'_append 0 lo (hi - lo) 1
    have e1 : 0 + 1 * lo = lo := by omega
    have e2 : hi - lo + lo = hi := by omega
    rw [e1, e2] at h
    exact h
  have hsplit2 : List.range' 0 hi ++ List.range' hi (H - hi) = List.range' 0 H := by
    have h := List.range'_append 0 hi (H - hi) 1
    have e1 : 0 + 1 * hi = hi := by omega
    have e2 : H - hi + hi = H := by omega
    rw [e1, e2] at h
    exact h
  rw [detectRuns, List.range_eq_range', ← hsplit2, ← hsplit1]
  rw [List.foldl_append, List.foldl_append]
  rw [foldl_runStep_false pred lo 0 [] hfalse_lo]
  rw [foldl_runStep_true pred (hi - lo) lo [] (by omega) htrue_mid]
  by_cases hH : hi = H
  · have : H - hi = 0 := by omega
    rw [this]
    simp only [List.range'_zero, List.foldl_nil]
    have : 3 ≤ H - lo := by omega
    simp only [this, if_pos]
    simp only [List.nil_append]
    have : H - lo = hi - lo := by omega
    rw [this]
  · rw [foldl_runStep_close pred (H - hi) hi lo [] (by omega) (by omega) hfalse_hi]
    simp

theorem region_cast_exact (v : ℕ) (s : ℚ) (hs : 0 < s) :
    toUsize (rustRound (((v : ℚ) * s) / s)) = v := by
  have hdiv : ((v : ℚ) * s) / s = (v : ℚ) := by
    field_simp
  rw [hdiv, rustRound, if_pos (by positivity)]
  have hfloor : ⌊(v : ℚ) + 1/2⌋ = (v : ℤ) := by
    rw [Int.floor_eq_iff]
    constructor
    · push_cast
      linarith
    · push_cast
      linarith
  rw [hfloor, toUsize, Int.toNat_natCast]

theorem profile_window (rgb : List ℕ) (imgW pxX pxY pxW pxH s t : ℕ)
    (h : t ≤ pxH - s) :
    ((profileOf rgb imgW pxX pxY pxW pxH).drop s).take t =
    (List.range' s t).map
      (fun row => (darkCount rgb imgW pxX pxY pxW row : ℚ) / pxW) := by
  rw [profileOf, ← List.map_drop, ← List.map_take]
  congr 1
  rw [List.range_eq_range', range'_drop, Nat.zero_add, range'_take _ _ _ h]

theorem smoothedOf_getD (rgb : List ℕ) (imgW pxX pxY pxW pxH r : ℕ) (hr : r < pxH) :
    (smoothedOf rgb imgW pxX pxY pxW pxH).getD r 0 =
    ((List.range' (r - 1) (min (r + 2) pxH - (r - 1))).map
      (fun row => (darkCount rgb imgW pxX pxY pxW row : ℚ) / pxW)).sum /
      ((min (r + 2) pxH - (r - 1) : ℕ) : ℚ) := by
  rw [smoothedOf, getD_map_range _ _ _ hr]
  rw [profile_window _ _ _ _ _ _ _ _ (by omega)]

theorem darkCount_le (rgb : List ℕ) (imgW pxX pxY pxW row : ℕ) :
    darkCount rgb imgW pxX pxY pxW row ≤ pxW := by
  rw [darkCount]
  have h := List.length_filter_le
    (fun col => pixelCounted rgb imgW (pxX + col) (pxY + row)) (List.range pxW)
  rwa [List.length_range] at h

theorem smoothed_getD_bounds (rgb : List ℕ) (imgW pxX pxY pxW pxH r : ℕ)
    (hW : 1 ≤ pxW) (hr : r < pxH) :
    0 ≤ (smoothedOf rgb imgW pxX pxY pxW pxH).getD r 0 ∧
    (smoothedOf rgb imgW pxX pxY pxW pxH).getD r 0 ≤ 1 := by
  rw [smoothedOf_getD _ _ _ _ _ _ _ hr]
  have hWQ : (0 : ℚ) < pxW := by exact_mod_cast hW
  have hnn : ∀ x ∈ (List.range' (r - 1) (min (r + 2) pxH - (r - 1))).map
      (fun row => (darkCount rgb imgW pxX pxY pxW row : ℚ) / pxW), 0 ≤ x := by
    intro x hx
    obtain ⟨row, -, rfl⟩ := List.mem_map.1 hx
    positivity
  have hle1 : ∀ x ∈ (List.range' (r - 1) (min (r + 2) pxH - (r - 1))).map
      (fun row => (darkCount rgb imgW pxX pxY pxW row : ℚ) / pxW), x ≤ 1 := by
    intro x hx
    obtain ⟨row, -, rfl⟩ := List.mem_map.1 hx
    rw [div_le_one hWQ]
    exact_mod_cast darkCount_le rgb imgW pxX pxY pxW row
  have hsize : 1 ≤ min (r + 2) pxH - (r - 1) := by omega
  have hszQ : (0 : ℚ) < ((min (r + 2) pxH - (r - 1) : ℕ) : ℚ) := by exact_mod_cast hsize
  constructor
  · exact div_nonneg (List.sum_nonneg hnn) (le_of_lt hszQ)
  · rw [div_le_one hszQ]
    have h := List.sum_le_card_nsmul _ 1 hle1
    rwa [List.length_map, List.length_range', nsmul_eq_mul, mul_one] at h

theorem thresholdOf_bounds (rgb : List ℕ) (imgW pxX pxY pxW pxH : ℕ) (hW : 1 ≤ pxW) :
    1/200 ≤ thresholdOf rgb imgW pxX pxY pxW pxH ∧
    thresholdOf rgb imgW pxX pxY pxW pxH ≤ 3/20 := by
  rw [thresholdOf]
  by_cases hne : ((smoothedOf rgb imgW pxX pxY pxW pxH).filter
      (fun v => decide ((1 : ℚ)/200 < v))).isEmpty
  · rw [if_pos hne]
    norm_num
  · rw [if_neg hne]
    set nz := (smoothedOf rgb imgW pxX pxY pxW pxH).filter
      (fun v => decide ((1 : ℚ)/200 < v)) with hnz
    have hlen : 0 < nz.length := by
      rcases hq : nz with - | ⟨x, xs⟩
      · rw [hq] at hne
        simp at hne
      · simp [hq]
    have hlenQ : (0 : ℚ) < (nz.length : ℚ) := by exact_mod_cast hlen
    have hle1 : ∀ x ∈ nz, x ≤ 1 := by
      intro x hx
      have hxs : x ∈ smoothedOf rgb imgW pxX pxY pxW pxH := List.mem_of_mem_filter hx
      rw [smoothedOf] at hxs
      obtain ⟨r, hr, rfl⟩ := List.mem_map.1 hxs
      have hr' : r < pxH := List.mem_range.1 hr
      have h := (smoothed_getD_bounds rgb imgW pxX pxY pxW pxH r hW hr').2
      rwa [smoothedOf, getD_map_range _ _ _ hr'] at h
    have hsum : nz.sum ≤ (nz.length : ℚ) := by
      have h := List.sum_le_card_nsmul _ 1 hle1
      rwa [nsmul_eq_mul, mul_one] at h
    have hmean : nz.sum / nz.length ≤ 1 := by
      rw [div_le_one hlenQ]
      exact hsum
    constructor
    · exact le_max_right _ _
    · refine max_le ?_ (by norm_num)
      have := mul_le_mul_of_nonneg_right hmean (by norm_num : (0:ℚ) ≤ 15/100)
      linarith

theorem regionRuns_band (rgb : List ℕ) (imgW X Y W Hh a k : ℕ)
    (hW : 1 ≤ W) (ha : 1 ≤ a) (hk : 3 ≤ k) (hak : a + k + 1 ≤ Hh)
    (hdark : ∀ row col, a ≤ row → row < a + k → col < W →
      pixelCounted rgb imgW (X + col) (Y + row) = true)
    (hwhite : ∀ row col, row < Hh → (row < a ∨ a + k ≤ row) → col < W →
      pixelCounted rgb imgW (X + col) (Y + row) = false) :
    regionRuns rgb imgW X Y W Hh = [(a - 1, k + 2)] := by
  have hWQ : (0 : ℚ) < W := by exact_mod_cast hW
  have hdc1 : ∀ row, a ≤ row → row < a + k → darkCount rgb imgW X Y W row = W := by
    intro row h1 h2
    rw [darkCount]
    rw [List.filter_eq_self.2 ?_, List.length_range]
    intro col hcol
    exact hdark row col h1 h2 (List.mem_range.1 hcol)
  have hdc0 : ∀ row, row < Hh → (row < a ∨ a + k ≤ row) →
      darkCount rgb imgW X Y W row = 0 := by
    intro row h1 h2
    rw [darkCount, List.length_eq_zero]
    rw [List.filter_eq_nil_iff]
    intro col hcol
    rw [hwhite row col h1 h2 (List.mem_range.1 hcol)]
    exact Bool.false_ne_true
  have hsm_out : ∀ r, r < Hh → (r + 1 < a ∨ a + k + 1 ≤ r) →
      (smoothedOf rgb imgW X Y W Hh).getD r 0 = 0 := by
    intro r hr hout
    rw [smoothedOf_getD _ _ _ _ _ _ _ hr]
    have hzero : ((List.range' (r - 1) (min (r + 2) Hh - (r - 1))).map
        (fun row => (darkCount rgb imgW X Y W row : ℚ) / W)).sum = 0 := by
      apply List.sum_eq_zero
      intro x hx
      obtain ⟨row, hrow, rfl⟩ := List.mem_map.1 hx
      have hb := List.mem_range'_1.1 hrow
      rw [hdc0 row (by omega) (by omega)]
      simp
    rw [hzero, zero_div]
  have hsm_in : ∀ r, r < Hh → a - 1 ≤ r → r < a + k + 1 →
      1/3 ≤ (smoothedOf rgb imgW X Y W Hh).getD r 0 := by
    intro r hr h1 h2
    rw [smoothedOf_getD _ _ _ _ _ _ _ hr]
    have hw : ∃ w, a ≤ w ∧ w < a + k ∧ w ∈ List.range' (r - 1) (min (r + 2) Hh - (r - 1)) := by
      refine ⟨if r < a then a else min r (a + k - 1), ?_, ?_, ?_⟩
      · split <;> omega
      · split <;> omega
      · rw [List.mem_range'_1]
        constructor
        · split <;> omega
        · split <;> omega
    obtain ⟨w, hw1, hw2, hwmem⟩ := hw
    have hnn : ∀ x ∈ (List.range' (r - 1) (min (r + 2) Hh - (r - 1))).map
        (fun row => (darkCount rgb imgW X Y W row : ℚ) / W), 0 ≤ x := by
      intro x hx
      obtain ⟨row, -, rfl⟩ := List.mem_map.1 hx
      positivity
    have hsum_ge : (1 : ℚ) ≤ ((List.range' (r - 1) (min (r + 2) Hh - (r - 1))).map
        (fun row => (darkCount rgb imgW X Y W row : ℚ) / W)).sum := by
      have hmem : (darkCount rgb imgW X Y W w : ℚ) / W ∈
          (List.range' (r - 1) (min (r + 2) Hh - (r - 1))).map
          (fun row => (darkCount rgb imgW X Y W row : ℚ) / W) :=
        List.mem_map_of_mem _ hwmem
      have h := List.single_le_sum hnn _ hmem
      rwa [hdc1 w hw1 hw2, div_self (ne_of_gt hWQ)] at h
    have hm3 : min (r + 2) Hh - (r - 1) ≤ 3 := by omega
    have hm1 : 1 ≤ min (r + 2) Hh - (r - 1) := by omega
    have hmQpos : (0 : ℚ) < ((min (r + 2) Hh - (r - 1) : ℕ) : ℚ) := by exact_mod_cast hm1
    have hmQ3 : ((min (r + 2) Hh - (r - 1) : ℕ) : ℚ) ≤ 3 := by exact_mod_cast hm3
    rw [le_div_iff₀ hmQpos]
    linarith
  obtain ⟨hth1, hth2⟩ := thresholdOf_bounds rgb imgW X Y W Hh hW
  have hpred : ∀ r, r < Hh →
      ((fun r => decide (thresholdOf rgb imgW X Y W Hh <
        (smoothedOf rgb imgW X Y W Hh).getD r 0)) r = true ↔
        (a - 1 ≤ r ∧ r < a + k + 1)) := by
    intro r hr
    rw [decide_eq_true_iff]
    constructor
    · intro hlt
      by_contra hout
      rw [not_and_or, not_le, not_lt] at hout
      have h0 := hsm_out r hr (by omega)
      rw [h0] at hlt
      linarith
    · intro hin
      have h := hsm_in r hr hin.1 hin.2
      linarith
  rw [regionRuns,
    detectRuns_single _ Hh (a - 1) (a + k + 1) (by omega) (by omega) (by omega) hpred]
  have heq : a + k + 1 - (a - 1) = k + 2 := by omega
  rw [heq]

theorem regionRuns_blank (rgb : List ℕ) (imgW X Y W Hh : ℕ)
    (hblank : ∀ row col, row < Hh → col < W →
      pixelCounted rgb imgW (X + col) (Y + row) = false) :
    regionRuns rgb imgW X Y W Hh = [] := by
  have hdc0 : ∀ row, row < Hh → darkCount rgb imgW X Y W row = 0 := by
    intro row h1
    rw [darkCount, List.length_eq_zero]
    rw [List.filter_eq_nil_iff]
    intro col hcol
    rw [hblank row col h1 (List.mem_range.1 hcol)]
    exact Bool.false_ne_true
  have hsm0 : ∀ r, r < Hh → (smoothedOf rgb imgW X Y W Hh).getD r 0 = 0 := by
    intro r hr
    rw [smoothedOf_getD _ _ _ _ _ _ _ hr]
    have hzero : ((List.range' (r - 1) (min (r + 2) Hh - (r - 1))).map
        (fun row => (darkCount rgb imgW X Y W row : ℚ) / W)).sum = 0 := by
      apply List.sum_eq_zero
      intro x hx
      obtain ⟨row, hrow, rfl⟩ := List.mem_map.1 hx
      have hb := List.mem_range'_1.1 hrow
      rw [hdc0 row (by omega)]
      simp
    rw [hzero, zero_div]
  have hth : (1 : ℚ)/200 ≤ thresholdOf rgb imgW X Y W Hh := by
    rw [thresholdOf]
    split
    · norm_num
    · exact le_max_right _ _
  have hpred : ∀ r, 0 ≤ r → r < 0 + Hh →
      (fun r => decide (thresholdOf rgb imgW X Y W Hh <
        (smoothedOf rgb imgW X Y W Hh).getD r 0)) r = false := by
    intro r _ hr
    rw [decide_eq_false_iff_not, not_lt]
    rw [hsm0 r (by omega)]
    linarith
  rw [regionRuns, detectRuns]
  rw [List.range_eq_range']
  rw [foldl_runStep_false _ Hh 0 [] hpred]

theorem detect_lines_for_block_band (b : LayoutBlock) (rgb : List ℕ)
    (imgW imgH X Y W Hh a k : ℕ) (sx sy : ℚ)
    (hsx : 0 < sx) (hsy : 0 < sy)
    (hbx : b.bbox.x = (X : ℚ) * sx) (hby : b.bbox.y = (Y : ℚ) * sy)
    (hbw : b.bbox.w = (W : ℚ) * sx) (hbh : b.bbox.h = (Hh : ℚ) * sy)
    (hW : 1 ≤ W) (hXW : X + W ≤ imgW) (hYH : Y + Hh ≤ imgH)
    (ha : 1 ≤ a) (hk : 3 ≤ k) (hak : a + k + 1 ≤ Hh)
    (hdark : ∀ row col, a ≤ row → row < a + k → col < W →
      pixelCounted rgb imgW (X + col) (Y + row) = true)
    (hwhite : ∀ row col, row < Hh → (row < a ∨ a + k ≤ row) → col < W →
      pixelCounted rgb imgW (X + col) (Y + row) = false) :
    detect_lines_for_block b rgb imgW imgH sx sy =
      [{ y := ((Y : ℚ) + (a : ℚ) + (k : ℚ) / 2) * sy, height := ((k : ℚ) + 2) * sy }] := by
  have e1 : min (toUsize (rustRound (b.bbox.x / sx))) (imgW - 1) = X := by
    rw [hbx, region_cast_exact X sx hsx, Nat.min_eq_left (by omega)]
  have e2 : min (toUsize (rustRound (b.bbox.y / sy))) (imgH - 1) = Y := by
    rw [hby, region_cast_exact Y sy hsy, Nat.min_eq_left (by omega)]
  have e3 : min (toUsize (rustRound (b.bbox.w / sx))) (imgW - X) = W := by
    rw [hbw, region_cast_exact W sx hsx, Nat.min_eq_left (by omega)]
  have e4 : min (toUsize (rustRound (b.bbox.h / sy))) (imgH - Y) = Hh := by
    rw [hbh, region_cast_exact Hh sy hsy, Nat.min_eq_left (by omega)]
  have hcast1 : ((a - 1 : ℕ) : ℚ) = (a : ℚ) - 1 := by
    rw [Nat.cast_sub ha, Nat.cast_one]
  have hcast2 : ((k + 2 : ℕ) : ℚ) = (k : ℚ) + 2 := by
    push_cast
    ring
  simp only [detect_lines_for_block]
  rw [e1, e2, e3, e4]
  rw [if_neg (by omega : ¬(W = 0 ∨ Hh = 0))]
  rw [regionRuns_band rgb imgW X Y W Hh a k hW ha hk hak hdark hwhite]
  simp only [List.map_cons, List.map_nil, List.isEmpty_cons, Bool.false_eq_true, if_false]
  simp only [List.cons.injEq, LineInfo.mk.injEq, and_true]
  constructor
  · rw [hby, hcast1, hcast2]
    ring
  · rw [hcast2]

theorem detect_lines_for_block_blank (b : LayoutBlock) (rgb : List ℕ)
    (imgW imgH X Y W Hh : ℕ) (sx sy : ℚ)
    (hsx : 0 < sx) (hsy : 0 < sy)
    (hbx : b.bbox.x = (X : ℚ) * sx) (hby : b.bbox.y = (Y : ℚ) * sy)
    (hbw : b.bbox.w = (W : ℚ) * sx) (hbh : b.bbox.h = (Hh : ℚ) * sy)
    (hW : 1 ≤ W) (hH : 1 ≤ Hh) (hXW : X + W ≤ imgW) (hYH : Y + Hh ≤ imgH)
    (hblank : ∀ row col, row < Hh → col < W →
      pixelCounted rgb imgW (X + col) (Y + row) = false) :
    detect_lines_for_block b rgb imgW imgH sx sy =
      [{ y := b.bbox.y + b.bbox.h / 2, height := b.bbox.h }] := by
  have e1 : min (toUsize (rustRound (b.bbox.x / sx))) (imgW - 1) = X := by
    rw [hbx, region_cast_exact X sx hsx, Nat.min_eq_left (by omega)]
  have e2 : min (toUsize (rustRound (b.bbox.y / sy))) (imgH - 1) = Y := by
    rw [hby, region_cast_exact Y sy hsy, Nat.min_eq_left (by omega)]
  have e3 : min (toUsize (rustRound (b.bbox.w / sx))) (imgW - X) = W := by
    rw [hbw, region_cast_exact W sx hsx, Nat.min_eq_left (by omega)]
  have e4 : min (toUsize (rustRound (b.bbox.h / sy))) (imgH - Y) = Hh := by
    rw [hbh, region_cast_exact Hh sy hsy, Nat.min_eq_left (by omega)]
  simp only [detect_lines_for_block]
  rw [e1, e2, e3, e4]
  rw [if_neg (by omega : ¬(W = 0 ∨ Hh = 0))]
  rw [regionRuns_blank rgb imgW X Y W Hh hblank]
  simp only [List.map_nil, List.isEmpty_nil, if_true]

/-- C9: line-segmentation round-trip (layout.rs:447-563).  For a
navigable block whose pixel region (here assumed pixel-aligned:
its bbox is an exact point-scaled image rectangle) contains exactly one
uniform dark band of `k ≥ 3` rows on an otherwise white background, with
at least one white row above and below inside the region,
`detect_lines_for_blocks` replaces the block's lines with exactly one
band whose page-point vertical center `(Y + a + k/2) * sy` is the
band's center (the detector widens the band by the one smoothing radius
on each side, keeping the center); and for a navigable block whose
region is uniformly blank it emits exactly one fallback band centered on
and spanning the block. -/
theorem line_segmentation_roundtrip :
    (∀ (b : LayoutBlock) (rgb : List ℕ) (imgW imgH X Y W Hh a k : ℕ) (sx sy : ℚ),
      0 < sx → 0 < sy →
      b.bbox.x = (X : ℚ) * sx → b.bbox.y = (Y : ℚ) * sy →
      b.bbox.w = (W : ℚ) * sx → b.bbox.h = (Hh : ℚ) * sy →
      1 ≤ W → X + W ≤ imgW → Y + Hh ≤ imgH →
      1 ≤ a → 3 ≤ k → a + k + 1 ≤ Hh →
      is_navigable b.class_id = true →
      (∀ row col, a ≤ row → row < a + k → col < W →
        pixelCounted rgb imgW (X + col) (Y + row) = true) →
      (∀ row col, row < Hh → (row < a ∨ a + k ≤ row) → col < W →
        pixelCounted rgb imgW (X + col) (Y + row) = false) →
      detect_lines_for_blocks [b] rgb imgW imgH sx sy =
        [{ b with lines := [{ y := ((Y : ℚ) + (a : ℚ) + (k : ℚ) / 2) * sy,
                              height := ((k : ℚ) + 2) * sy }] }]) ∧
    (∀ (b : LayoutBlock) (rgb : List ℕ) (imgW imgH X Y W Hh : ℕ) (sx sy : ℚ),
      0 < sx → 0 < sy →
      b.bbox.x = (X : ℚ) * sx → b.bbox.y = (Y : ℚ) * sy →
      b.bbox.w = (W : ℚ) * sx → b.bbox.h = (Hh : ℚ) * sy →
      1 ≤ W → 1 ≤ Hh → X + W ≤ imgW → Y + Hh ≤ imgH →
      is_navigable b.class_id = true →
      (∀ row col, row < Hh → col < W →
        pixelCounted rgb imgW (X + col) (Y + row) = false) →
      detect_lines_for_blocks [b] rgb imgW imgH sx sy =
        [{ b with lines := [{ y := b.bbox.y + b.bbox.h / 2, height := b.bbox.h }] }]) := by
  constructor
  · intro b rgb imgW imgH X Y W Hh a k sx sy hsx hsy hbx hby hbw hbh hW hXW hYH
      ha hk hak hnav hdark hwhite
    rw [detect_lines_for_blocks, List.map_cons, List.map_nil, if_pos hnav]
    rw [detect_lines_for_block_band b rgb imgW imgH X Y W Hh a k sx sy hsx hsy
      hbx hby hbw hbh hW hXW hYH ha hk hak hdark hwhite]
  · intro b rgb imgW imgH X Y W Hh sx sy hsx hsy hbx hby hbw hbh hW hH hXW hYH
      hnav hblank
    rw [detect_lines_for_blocks, List.map_cons, List.map_nil, if_pos hnav]
    rw [detect_lines_for_block_blank b rgb imgW imgH X Y W Hh sx sy hsx hsy
      hbx hby hbw hbh hW hH hXW hYH hblank]

/-- Witness block for the band case: a 1-point-per-pixel block over a
1×5-pixel region. -/
def wLineBlock : LayoutBlock :=
  { bbox := ⟨0, 0, 1, 5⟩, class_id := 2, confidence := 9/10, order := 0, lines := [] }

/-- A 1×5 image: white row, three black rows, white row. -/
def wRgb : List ℕ := [255, 255, 255, 0, 0, 0, 0, 0, 0, 0, 0, 0, 255, 255, 255]

/-- Witness block for the blank case: a 1-point-per-pixel block over a
1×1-pixel all-white region. -/
def wBlankBlock : LayoutBlock :=
  { bbox := ⟨0, 0, 1, 1⟩, class_id := 2, confidence := 9/10, order := 0, lines := [] }

/-- A 1×1 all-white image. -/
def wBlankRgb : List ℕ := [255, 255, 255]

theorem line_segmentation_roundtrip_witness :
    detect_lines_for_blocks [wLineBlock] wRgb 1 5 1 1 =
      [{ wLineBlock with lines := [{ y := 5/2, height := 5 }] }] ∧
    detect_lines_for_blocks [wBlankBlock] wBlankRgb 1 1 1 1 =
      [{ wBlankBlock with lines := [{ y := 1/2, height := 1 }] }] := by
  constructor
  · have h := line_segmentation_roundtrip.1 wLineBlock wRgb 1 5 0 0 1 5 1 3 1 1
      (by norm_num) (by norm_num)
      (by norm_num [wLineBlock]) (by norm_num [wLineBlock])
      (by norm_num [wLineBlock]) (by norm_num [wLineBlock])
      (by norm_num) (by norm_num) (by norm_num)
      (by norm_num) (by norm_num) (by norm_num)
      (by rfl)
      (by
        intro row col h1 h2 h3
        have hc : col = 0 := by omega
        subst hc
        interval_cases row <;> (simp only [pixelCounted]; norm_num [wRgb]))
      (by
        intro row col h1 h2 h3
        have hc : col = 0 := by omega
        subst hc
        interval_cases row <;>
          first
          | omega
          | (simp only [pixelCounted]; norm_num [wRgb]))
    rw [h]
    norm_num [wLineBlock]
  · have h := line_segmentation_roundtrip.2 wBlankBlock wBlankRgb 1 1 0 0 1 1 1 1
      (by norm_num) (by norm_num)
      (by norm_num [wBlankBlock]) (by norm_num [wBlankBlock])
      (by norm_num [wBlankBlock]) (by norm_num [wBlankBlock])
      (by norm_num) (by norm_num) (by norm_num) (by norm_num)
      (by rfl)
      (by
        intro row col h1 h2
        have hc : col = 0 := by omega
        have hr : row = 0 := by omega
        subst hc
        subst hr
        simp only [pixelCounted]
        norm_num [wBlankRgb])
    rw [h]
    norm_num [wBlankBlock]
